import Mathlib

/-!
Verification development for the slither-dataflow repository.

Two engines are embedded:

* `Taint` — a shallow embedding of
  `slither_dataflow/analyzers/taint.py` (`TaintAnalyzer`): the worklist
  taint-graph builder over a `networkx.DiGraph`, the three propagation
  rules, the node-key function, the sink-reachability check, and the
  variable-resolution helper from `slither_dataflow/utils/helpers.py`.

* `Dep` — a shallow embedding of `taint_analysis.py`: the IR-level
  direct-dependency extractor (`compute_direct_dependencies`) and the
  reverse depth-first multi-path search (`find_dependency_paths`).

The Slither program facade (contracts, functions, statements, read/write
sets, expression objects) is external to the repository; it is embedded
as plain data carrying exactly the observations the analyzers consume.
-/

set_option maxRecDepth 8000

namespace Taint

/-- Python class of a Slither variable object, as tested by the
`isinstance(var, StateVariable)` / `isinstance(var, LocalVariable)`
checks in `TaintAnalyzer._get_var_type`. -/
inductive VarCls where
  | stateV
  | localV
  | otherV
deriving DecidableEq, Repr

/-- A Slither variable handle as consumed by the taint analyzer.
`isParamOfOwner` models the facade observation
`hasattr(var, 'function') and var in var.function.parameters`
used by `_get_var_type`. -/
structure Var where
  name : String
  cls : VarCls
  isParamOfOwner : Bool
deriving DecidableEq, Repr

/-- An argument expression of a call, as consumed by
`_process_parameter_taint`: its textual form and the set of variables
that `get_expression_variables` (the reflective attribute walk in
`utils/helpers.py`) collects from it. -/
structure ArgExpr where
  text : String
  vars : List Var
deriving DecidableEq, Repr

/-- A Slither `Expression` object as observed by the analyzer:
`text` models `str(expression)`; `vars` models the result of the
reflective `get_expression_variables` walk over the whole expression
(which visits every attribute, so it includes the written/left-hand
occurrences as well as the read ones); `arguments` models the
`expression.arguments` attribute of call expressions (empty when the
attribute is absent). -/
structure SExpr where
  text : String
  vars : List Var
  arguments : List ArgExpr
deriving DecidableEq, Repr

/-- The result of the reflective `get_expression_variables` helper of
`utils/helpers.py`, exposed on the embedded expression object. -/
def get_expression_variables (e : SExpr) : List Var := e.vars

/-- `get_expression_variables` applied to an argument expression. -/
def getArgVars (a : ArgExpr) : List Var := a.vars

/-- A Slither CFG node (one statement) as consumed by the analyzer:
optional expression, the read/written variable lists split local/state,
the `Function`-typed entries of `node.internal_calls` (by callee name),
and `node.source_mapping.lines`. -/
structure Stmt where
  expression : Option SExpr
  localsRead : List Var
  localsWritten : List Var
  stateRead : List Var
  stateWritten : List Var
  internalCalls : List String
  lines : List Nat
deriving DecidableEq, Repr

/-- A Slither `Function`: name, ordered parameters, CFG nodes. -/
structure Func where
  name : String
  parameters : List Var
  nodes : List Stmt
deriving DecidableEq, Repr

/-- A Slither `Contract` together with the facade's data-dependency
oracle: `isDep w v f` models the external
`slither.analyses.data_dependency.is_dependent(w, v, f)` call. -/
structure Contract where
  functions : List Func
  isDep : Var → Var → Func → Bool

/-- `node.local_variables_written + node.state_variables_written`,
the list iterated by both propagation rules of
`_process_function_taint`. -/
def writtenVars (st : Stmt) : List Var := st.localsWritten ++ st.stateWritten

/-- The statement's declared read set
(`node.local_variables_read + node.state_variables_read` of the
facade).  The analyzer itself never consults this list in
`_process_function_taint`; it is the "read set" the specification
refers to. -/
def stmtReadSet (st : Stmt) : List Var := st.localsRead ++ st.stateRead

/-- `TaintAnalyzer._node_key`: the string `f"{var.name}@{func_name}"`
with `func_name = func.name if func else "global"`. -/
def node_key (v : Var) (f : Option Func) : String :=
  v.name ++ "@" ++ (match f with | some fn => fn.name | none => "global")

/-- `TaintAnalyzer._get_var_type`. -/
def get_var_type (v : Var) : String :=
  match v.cls with
  | VarCls.stateV => "state"
  | VarCls.localV => if v.isParamOfOwner then "parameter" else "local"
  | VarCls.otherV => "unknown"

/-- Attributes stored on a `networkx` node by the analyzer
(`var=`, `function=`, `var_type=`); `none` fields model a node
auto-created by `add_edge` without attributes. -/
structure NodeData where
  var : Option Var
  function : Option Func
  varType : Option String
deriving DecidableEq, Repr

/-- Attributes stored on a `networkx` edge by the analyzer
(`expression=`, `line=`). -/
structure EdgeData where
  expression : String
  line : Option Nat
deriving DecidableEq, Repr

/-- A `networkx.DiGraph` as used by the analyzer: keyed node list in
insertion order and a simple directed edge list in insertion order
(at most one edge per ordered pair, as in `DiGraph`). -/
structure DiGraph where
  nodes : List (String × NodeData)
  edges : List (String × String × EdgeData)
deriving DecidableEq, Repr

/-- Node membership (`key in G`). -/
def nodeMemB (g : DiGraph) (k : String) : Bool :=
  g.nodes.any (fun n => n.1 == k)

/-- Edge membership between an ordered pair of keys. -/
def edgeMemB (g : DiGraph) (a b : String) : Bool :=
  g.edges.any (fun e => e.1 == a && e.2.1 == b)

/-- Number of stored edges between an ordered pair of keys. -/
def countEdges (g : DiGraph) (a b : String) : Nat :=
  (g.edges.filter (fun e => e.1 == a && e.2.1 == b)).length

/-- The stored attribute record of the edge between a pair, if any. -/
def edgeDataOf (g : DiGraph) (a b : String) : Option EdgeData :=
  (g.edges.find? (fun e => e.1 == a && e.2.1 == b)).map (fun e => e.2.2)

/-- `networkx` node insertion/update: an existing key has its attribute
record replaced in place, a new key is appended. -/
def updNodes : List (String × NodeData) → String → NodeData → List (String × NodeData)
  | [], k, d => [(k, d)]
  | (k', d') :: rest, k, d =>
      if k' = k then (k, d) :: rest else (k', d') :: updNodes rest k d

/-- `G.add_node(k, ...)`. -/
def addNode (g : DiGraph) (k : String) (d : NodeData) : DiGraph :=
  { g with nodes := updNodes g.nodes k d }

/-- `add_edge` auto-creates missing endpoints with no attributes. -/
def ensureNode (g : DiGraph) (k : String) : DiGraph :=
  if nodeMemB g k then g
  else { g with nodes := g.nodes ++ [(k, ⟨none, none, none⟩)] }

/-- `networkx` edge insertion/update: an existing ordered pair has its
attribute record replaced in place, a new pair is appended. -/
def updEdges : List (String × String × EdgeData) → String → String → EdgeData →
    List (String × String × EdgeData)
  | [], u, v, d => [(u, v, d)]
  | (u', v', d') :: rest, u, v, d =>
      if u' = u ∧ v' = v then (u, v, d) :: rest
      else (u', v', d') :: updEdges rest u v d

/-- `G.add_edge(u, v, ...)` on a `networkx.DiGraph`. -/
def addEdge (g : DiGraph) (u v : String) (d : EdgeData) : DiGraph :=
  let g1 := ensureNode g u
  let g2 := ensureNode g1 v
  { g2 with edges := updEdges g2.edges u v d }

/-- A worklist entry: a `(variable, function)` pair. -/
abbrev Pair := Var × Func

/-- The common body of both rules of `_process_function_taint`:
`G.add_node(next_key, ...)`, `G.add_edge(current_key, next_key, ...)`,
then `to_process.append((written_var, func))` unless already processed. -/
def addTaintNodeEdge (func : Func) (currentKey : String) (exprText : String)
    (line : Option Nat) (processed : List Pair)
    (acc : DiGraph × List Pair) (w : Var) : DiGraph × List Pair :=
  let nk := node_key w (some func)
  let g1 := addNode acc.1 nk ⟨some w, some func, some (get_var_type w)⟩
  let g2 := addEdge g1 currentKey nk ⟨exprText, line⟩
  let tp := if (w, func) ∈ processed then acc.2 else acc.2 ++ [(w, func)]
  (g2, tp)

/-- One written variable of the heuristic (expression co-occurrence)
rule: skipped when it itself occurs in the expression's variables. -/
def heurStep (func : Func) (currentKey : String) (e : SExpr) (st : Stmt)
    (processed : List Pair) (acc : DiGraph × List Pair) (w : Var) :
    DiGraph × List Pair :=
  if w ∈ e.vars then acc
  else addTaintNodeEdge func currentKey e.text st.lines.head? processed acc w

/-- The heuristic block of `_process_function_taint` for one statement:
runs only when the statement has an expression and the current variable
occurs among its variables. -/
def processStmtHeur (func : Func) (var : Var) (currentKey : String)
    (processed : List Pair) (st : Stmt) (acc : DiGraph × List Pair) :
    DiGraph × List Pair :=
  match st.expression with
  | none => acc
  | some e =>
      if var ∈ e.vars then
        (writtenVars st).foldl (heurStep func currentKey e st processed) acc
      else acc

/-- `str(node.expression)` with the `"unknown expression"` fallback. -/
def exprStr (st : Stmt) : String :=
  match st.expression with
  | some e => e.text
  | none => "unknown expression"

/-- One written variable of the precise data-dependency rule. -/
def depStep (c : Contract) (func : Func) (var : Var) (currentKey : String)
    (st : Stmt) (processed : List Pair) (acc : DiGraph × List Pair) (w : Var) :
    DiGraph × List Pair :=
  if c.isDep w var func then
    addTaintNodeEdge func currentKey (exprStr st) st.lines.head? processed acc w
  else acc

/-- The `is_dependent` block of `_process_function_taint` for one
statement (runs for every statement, expression or not). -/
def processStmtDep (c : Contract) (func : Func) (var : Var) (currentKey : String)
    (processed : List Pair) (st : Stmt) (acc : DiGraph × List Pair) :
    DiGraph × List Pair :=
  (writtenVars st).foldl (depStep c func var currentKey st processed) acc

/-- `TaintAnalyzer._process_function_taint`: per statement, the
heuristic block then the data-dependency block. -/
def processFunctionTaint (c : Contract) (func : Func) (var : Var)
    (currentKey : String) (processed : List Pair) (acc : DiGraph × List Pair) :
    DiGraph × List Pair :=
  func.nodes.foldl
    (fun a st => processStmtDep c func var currentKey processed st
      (processStmtHeur func var currentKey processed st a)) acc

/-- Inner statement step of `_process_state_var_taint`. -/
def stateStep (var : Var) (currentKey : String) (of : Func)
    (processed : List Pair) (acc : DiGraph × List Pair) (st : Stmt) :
    DiGraph × List Pair :=
  if var ∈ st.stateRead then
    let nk := node_key var (some of)
    let g1 := addNode acc.1 nk ⟨some var, some of, some (get_var_type var)⟩
    let g2 := addEdge g1 currentKey nk
      ⟨"State variable read in " ++ of.name, none⟩
    let tp := if (var, of) ∈ processed then acc.2 else acc.2 ++ [(var, of)]
    (g2, tp)
  else acc

/-- `TaintAnalyzer._process_state_var_taint`. -/
def processStateVarTaint (c : Contract) (func : Func) (var : Var)
    (currentKey : String) (processed : List Pair) (acc : DiGraph × List Pair) :
    DiGraph × List Pair :=
  c.functions.foldl
    (fun a of =>
      if of = func then a
      else of.nodes.foldl (stateStep var currentKey of processed) a) acc

/-- One argument variable of `_process_parameter_taint`: node in the
caller's context, edge from the argument node to the parameter node. -/
def paramArgStep (func : Func) (var : Var) (currentKey : String) (of : Func)
    (st : Stmt) (processed : List Pair) (acc : DiGraph × List Pair) (av : Var) :
    DiGraph × List Pair :=
  let ak := node_key av (some of)
  let g1 := addNode acc.1 ak ⟨some av, some of, some (get_var_type av)⟩
  let g2 := addEdge g1 ak currentKey
    ⟨"Parameter " ++ var.name ++ " in call to " ++ func.name, st.lines.head?⟩
  let tp := if (av, of) ∈ processed then acc.2 else acc.2 ++ [(av, of)]
  (g2, tp)

/-- One `internal_call` entry of one statement of one candidate caller:
when it is a call to `func` and the statement's expression carries an
argument at the parameter's position, every variable of that argument
expression propagates. -/
def paramCallStep (func : Func) (var : Var) (currentKey : String) (of : Func)
    (st : Stmt) (paramIdx : Nat) (processed : List Pair)
    (acc : DiGraph × List Pair) (callee : String) : DiGraph × List Pair :=
  if callee = func.name then
    match st.expression with
    | none => acc
    | some e =>
        match e.arguments[paramIdx]? with
        | some arg =>
            (getArgVars arg).foldl (paramArgStep func var currentKey of st processed) acc
        | none => acc
  else acc

/-- `TaintAnalyzer._process_parameter_taint`:
`param_idx = func.parameters.index(var)`, then a scan of every
statement of every function of the contract for calls to `func`. -/
def processParameterTaint (c : Contract) (func : Func) (var : Var)
    (currentKey : String) (processed : List Pair) (acc : DiGraph × List Pair) :
    DiGraph × List Pair :=
  let paramIdx := func.parameters.indexOf var
  c.functions.foldl
    (fun a of =>
      of.nodes.foldl
        (fun a2 st =>
          st.internalCalls.foldl
            (paramCallStep func var currentKey of st paramIdx processed) a2) a) acc

/-- The initial graph of `_build_taint_graph`: the seed node. -/
def initGraph (srcVar : Var) (srcFunc : Func) : DiGraph :=
  addNode ⟨[], []⟩ (node_key srcVar (some srcFunc))
    ⟨some srcVar, some srcFunc, some (get_var_type srcVar)⟩

/-- The body of one fresh worklist iteration of
`TaintAnalyzer._build_taint_graph`: `_process_function_taint` always,
`_process_state_var_taint` when the variable is a `StateVariable`,
`_process_parameter_taint` when it is a parameter of its function. -/
def buildStep (c : Contract) (var : Var) (func : Func) (processed' : List Pair)
    (acc : DiGraph × List Pair) : DiGraph × List Pair :=
  let currentKey := node_key var (some func)
  let a1 := processFunctionTaint c func var currentKey processed' acc
  let a2 := if var.cls = VarCls.stateV then
      processStateVarTaint c func var currentKey processed' a1
    else a1
  if var ∈ func.parameters then
    processParameterTaint c func var currentKey processed' a2
  else a2

/-- The worklist loop of `TaintAnalyzer._build_taint_graph`, with an
explicit fuel parameter bounding the number of iterations (the Python
loop has no such bound; sufficiency of a finite fuel is exactly the
termination property proved below).  Returns the graph together with
the final processed set; `none` signals fuel exhaustion. -/
def buildLoop (c : Contract) : Nat → DiGraph → List Pair → List Pair →
    Option (DiGraph × List Pair)
  | _, g, [], processed => some (g, processed)
  | 0, _, _ :: _, _ => none
  | fuel + 1, g, (var, func) :: rest, processed =>
      if (var, func) ∈ processed then buildLoop c fuel g rest processed
      else
        let processed' := (var, func) :: processed
        let a3 := buildStep c var func processed' (g, rest)
        buildLoop c fuel a3.1 a3.2 processed'

/-- Errors raised by `networkx` path search: `NodeNotFound` (source or
target absent from the graph) and `NetworkXNoPath`. -/
inductive NxErr where
  | nodeNotFound
  | noPath
deriving DecidableEq, Repr

/-- Successor keys of a node, in edge insertion order. -/
def bfsSucc (g : DiGraph) (u : String) : List String :=
  (g.edges.filter (fun e => e.1 == u)).map (fun e => e.2.1)

/-- Breadth-first search for a shortest path (by edge count), visited
marked on enqueue; fuel bounds the iterations. -/
def bfsLoop (g : DiGraph) (t : String) : Nat → List (List String) → List String →
    Option (List String)
  | 0, _, _ => none
  | _ + 1, [], _ => none
  | fuel + 1, path :: queue, visited =>
      match path with
      | [] => bfsLoop g t fuel queue visited
      | u :: _ =>
          if u == t then some path.reverse
          else
            let nbrs := (bfsSucc g u).filter (fun v => !(visited.contains v))
            bfsLoop g t fuel (queue ++ nbrs.map (fun v => v :: path)) (visited ++ nbrs)

/-- `nx.shortest_path(G, source, target)` for an unweighted digraph:
`NodeNotFound` when source or target is absent, `NetworkXNoPath` when
no path exists, otherwise a shortest path. -/
def nxShortestPath (g : DiGraph) (s t : String) : Except NxErr (List String) :=
  if nodeMemB g s = false then Except.error NxErr.nodeNotFound
  else if nodeMemB g t = false then Except.error NxErr.nodeNotFound
  else if s == t then Except.ok [s]
  else
    match bfsLoop g t (g.nodes.length + g.edges.length + 1) [[s]] [s] with
    | some p => Except.ok p
    | none => Except.error NxErr.noPath

/-- `TaintAnalyzer._check_sink_tainted`: the sink key is checked for
membership first; the source key is built with `func = None`
("Function is irrelevant for source key"); only `NetworkXNoPath` is
caught, `NodeNotFound` propagates as an uncaught exception
(`Except.error`). -/
def check_sink_tainted (g : DiGraph) (sourceVar sinkVar : Var) (sinkFunc : Func) :
    Except NxErr (Bool × List String) :=
  let sourceKey := node_key sourceVar none
  let sinkKey := node_key sinkVar (some sinkFunc)
  if nodeMemB g sinkKey = false then Except.ok (false, [])
  else
    match nxShortestPath g sourceKey sinkKey with
    | Except.ok p => Except.ok (true, p)
    | Except.error NxErr.noPath => Except.ok (false, [])
    | Except.error NxErr.nodeNotFound => Except.error NxErr.nodeNotFound

/-- `utils/helpers.py: find_variable_by_name`: parameters first (exact
name or underscore-prefixed fallback), then locals in written-then-read
statement order, then state variables in read-then-written order. -/
def find_variable_by_name (f : Func) (n : String) : Option Var :=
  match f.parameters.find? (fun p => p.name == n || p.name == "_" ++ n) with
  | some p => some p
  | none =>
      match (f.nodes.flatMap (fun st => st.localsWritten ++ st.localsRead)).find?
          (fun lv => lv.name == n) with
      | some lv => some lv
      | none =>
          (f.nodes.flatMap (fun st => st.stateRead ++ st.stateWritten)).find?
            (fun sv => sv.name == n)

end Taint

namespace Dep

/-- A canonical (non-SSA) Slither variable identity, the key/value
type of the direct-dependency map after `non_ssa` normalisation. -/
structure BaseVar where
  name : String
deriving DecidableEq, Repr

/-- An IR variable: `base` is its non-SSA version.  A variable that
has no `non_ssa_version` attribute is embedded with itself as `base`
(`non_ssa` then returns the variable itself, as the Python
`except AttributeError` branch does).  `ssaIndex` distinguishes SSA
versions of the same base. -/
structure IRVar where
  base : BaseVar
  ssaIndex : Option Nat
deriving DecidableEq, Repr

/-- `taint_analysis.py: non_ssa` — the non-SSA version of a variable,
or the variable itself when it has none. -/
def non_ssa (v : IRVar) : BaseVar := v.base

/-- An IR operand: a variable or a Slither `Constant`. -/
inductive Operand where
  | var (v : IRVar)
  | cst (s : String)
deriving DecidableEq, Repr

/-- A value stored in the Python `defaultdict(set)`: the untyped set
could hold either variables or constants, which is what the
no-constant invariant is about. -/
inductive PVal where
  | var (b : BaseVar)
  | cst (s : String)
deriving DecidableEq, Repr

/-- Is this stored value a Slither `Constant`? -/
def PVal.isCst : PVal → Bool
  | PVal.var _ => false
  | PVal.cst _ => true

/-- The lvalue of an `OperationWithLValue`: its `is_storage` flag
(absent modelled as `false`), its `points_to` attribute (absent or
`None` modelled as `none`), and the variable itself. -/
structure LValInfo where
  isStorage : Bool
  pointsTo : Option IRVar
  self : IRVar
deriving DecidableEq, Repr

/-- One SSA IR operation as consumed by
`compute_direct_dependencies`: an `Index` (reads are exactly
`ir.variable_left`), an `InternalCall` (reads are the callee's
`return_values_ssa` when the callee resolves, else `ir.read`), any
other operation with an lvalue (reads are `ir.read`), or an operation
without an lvalue (skipped). -/
inductive IROp where
  | indexOp (lv : LValInfo) (variableLeft : Operand)
  | internalCall (lv : LValInfo) (calleeReturns : Option (List Operand)) (reads : List Operand)
  | opWithLValue (lv : LValInfo) (reads : List Operand)
  | otherOp
deriving DecidableEq, Repr

/-- The direct-dependency map: Python `defaultdict(set)` embedded as a
keyed list with set-semantics insertion. -/
abbrev DepMap := List (PVal × List PVal)

/-- Dictionary lookup. -/
def lookupDep (m : DepMap) (k : PVal) : Option (List PVal) :=
  (m.find? (fun e => e.1 == k)).map (fun e => e.2)

/-- `direct_dep[k].add(d)`: create the key if absent, insert the value
if not already present. -/
def insertDep : DepMap → PVal → PVal → DepMap
  | [], k, d => [(k, [d])]
  | (k', ds) :: rest, k, d =>
      if k' = k then (k', if d ∈ ds then ds else ds ++ [d]) :: rest
      else (k', ds) :: insertDep rest k d

/-- Membership of a dependency `d` in the mapped set of `k`. -/
def memDepB (m : DepMap) (k d : PVal) : Bool :=
  match lookupDep m k with
  | some ds => ds.contains d
  | none => false

/-- The lvalue/reads selection of one IR operation (`None` = the
operation is skipped because it has no lvalue). -/
def irReads : IROp → Option (LValInfo × List Operand)
  | IROp.indexOp lv vl => some (lv, [vl])
  | IROp.internalCall lv (some rets) _ => some (lv, rets)
  | IROp.internalCall lv none reads => some (lv, reads)
  | IROp.opWithLValue lv reads => some (lv, reads)
  | IROp.otherOp => none

/-- Alias resolution on the lvalue (`points_to` when set) followed by
`non_ssa`. -/
def resolveLValue (lv : LValInfo) : BaseVar :=
  non_ssa (match lv.pointsTo with | some p => p | none => lv.self)

/-- One read operand: constants are skipped, variables are inserted
after `non_ssa` normalisation. -/
def addRead (lval : BaseVar) (m : DepMap) (r : Operand) : DepMap :=
  match r with
  | Operand.cst _ => m
  | Operand.var v => insertDep m (PVal.var lval) (PVal.var (non_ssa v))

/-- Processing of one IR operation by `compute_direct_dependencies`:
skip when there is no lvalue or the lvalue is a flagged storage write,
otherwise record every non-constant read. -/
def processOp (m : DepMap) (ir : IROp) : DepMap :=
  match irReads ir with
  | none => m
  | some (lv, reads) =>
      if lv.isStorage then m
      else reads.foldl (addRead (resolveLValue lv)) m

/-- A function (or modifier) of the unit: its CFG nodes' `irs_ssa`
lists. -/
structure IRFunc where
  name : String
  nodes : List (List IROp)
deriving DecidableEq, Repr

/-- The target contract: `functions` and `modifiers` as iterated by
`compute_direct_dependencies`. -/
structure IRContract where
  name : String
  functions : List IRFunc
  modifiers : List IRFunc
deriving DecidableEq, Repr

/-- The flattened iteration order of `compute_direct_dependencies`:
`for function in functions + modifiers: for node in nodes: for ir in
node.irs_ssa`. -/
def contractOps (c : IRContract) : List IROp :=
  (c.functions ++ c.modifiers).flatMap (fun f => f.nodes.flatten)

/-- `taint_analysis.py: compute_direct_dependencies` for a resolved
target contract. -/
def compute_direct_dependencies (c : IRContract) : DepMap :=
  (contractOps c).foldl processOp []

/-- All values stored anywhere in a dependency map. -/
def depValsAll (dd : DepMap) : List PVal := dd.flatMap (fun e => e.2)

/-- The recursive `dfs` inside `find_dependency_paths`, with an
explicit fuel bounding recursion depth: a branch succeeds immediately
on an input variable, dies on a variable with no recorded
dependencies, and otherwise expands every recorded dependency that is
not already on the current path (`visited` is path-local: each branch
extends its own copy). -/
def dfs (dd : DepMap) (inputSet : List PVal) : Nat → PVal → List PVal →
    List (List PVal)
  | 0, _, _ => []
  | fuel + 1, current, visited =>
      if current ∈ inputSet then [[current]]
      else
        match lookupDep dd current with
        | none => []
        | some precs =>
            (precs.map (fun p =>
              if p ∈ visited then []
              else (dfs dd inputSet fuel p (visited ++ [p])).map
                (fun sp => sp ++ [current]))).flatten

/-- `taint_analysis.py: find_dependency_paths`: reverse multi-path
search from the target, started with `visited = {target}`.  The fuel
`(depValsAll dd).length + 1` dominates the recursion depth, since
every recursive call adds to the path a map value not yet on it. -/
def find_dependency_paths (target : PVal) (dd : DepMap) (inputSet : List PVal) :
    List (List PVal) :=
  dfs dd inputSet ((depValsAll dd).length + 1) target [target]

end Dep

namespace Taint

/-- Concrete function for the variable-resolution scenario: parameter
`_x`, and a statement both writing and reading a local named `x`. -/
def c10param : Var := ⟨"_x", VarCls.localV, true⟩

/-- A local variable named exactly `x`. -/
def c10local : Var := ⟨"x", VarCls.localV, false⟩

/-- A statement reading and writing the local `x`. -/
def c10st : Stmt := ⟨none, [c10local], [c10local], [], [], [], []⟩

/-- A function with parameter `_x` and a body using local `x`. -/
def c10f : Func := ⟨"f", [c10param], [c10st]⟩

/-- Claim C10: variable resolution by name applies an underscore-prefix
fallback for parameters, and since parameters are searched before
locals and state variables, whenever some parameter matches the
queried name `n` (exactly, or as `"_" ++ n`), the first such parameter
is returned, regardless of any local or state variable named `n`. -/
theorem claim_C10_param_underscore_precedence (f : Func) (n : String) (p : Var)
    (h : f.parameters.find? (fun q => q.name == n || q.name == "_" ++ n) = some p) :
    find_variable_by_name f n = some p := by
  unfold find_variable_by_name
  rw [h]

/-- Witness for C10: querying `x` in a function with parameter `_x`
returns the parameter even though a local named exactly `x` occurs. -/
theorem claim_C10_witness : find_variable_by_name c10f "x" = some c10param :=
  claim_C10_param_underscore_precedence c10f "x" c10param (by decide)

/-- A variable whose name contains the key separator. -/
def c2v1 : Var := ⟨"a@b", VarCls.localV, false⟩

/-- A function named `c`. -/
def c2f1 : Func := ⟨"c", [], []⟩

/-- A variable named `a`. -/
def c2v2 : Var := ⟨"a", VarCls.localV, false⟩

/-- A function whose name contains the key separator. -/
def c2f2 : Func := ⟨"b@c", [], []⟩

/-- Counterexample to C2: the node key is the concatenated string
`name ++ "@" ++ functionName`, so the two distinct pairs
`("a@b", c)` and `("a", b@c)` collide onto the single key `"a@b@c"`. -/
theorem claim_C2_counterexample :
    ((c2v1, c2f1) : Pair) ≠ ((c2v2, c2f2) : Pair) ∧
      node_key c2v1 (some c2f1) = node_key c2v2 (some c2f2) := by
  exact ⟨by decide, rfl⟩

/-- Splitting at a separator character absent from both left parts. -/
theorem append_sep_inj : ∀ (l1 l2 r1 r2 : List Char), '@' ∉ l1 → '@' ∉ l2 →
    l1 ++ '@' :: r1 = l2 ++ '@' :: r2 → l1 = l2 ∧ r1 = r2 := by
  intro l1
  induction l1 with
  | nil =>
      intro l2 r1 r2 _ h2 h
      cases l2 with
      | nil => simpa using h
      | cons c l2' =>
          simp only [List.nil_append, List.cons_append, List.cons.injEq] at h
          exact absurd (by rw [h.1]; exact List.mem_cons_self c l2') h2
  | cons c l1' ih =>
      intro l2 r1 r2 h1 h2 h
      cases l2 with
      | nil =>
          simp only [List.cons_append, List.nil_append, List.cons.injEq] at h
          exact absurd (by rw [← h.1]; exact List.mem_cons_self c l1') h1
      | cons d l2' =>
          simp only [List.cons_append, List.cons.injEq] at h
          obtain ⟨rfl, h⟩ := h
          have := ih l2' r1 r2 (fun hm => h1 (List.mem_cons_of_mem _ hm))
            (fun hm => h2 (List.mem_cons_of_mem _ hm)) h
          exact ⟨by rw [this.1], this.2⟩

/-- Amended C2: the node key is the plain string
`variableName ++ "@" ++ functionName` (or `"global"`); it identifies a
node by these two names alone, and it separates distinct pairs only
when the variable names do not contain the separator `'@'`: under that
restriction two keys agree exactly when the name pairs agree (names
containing `'@'` can collide, and attributes other than the name are
ignored). -/
theorem claim_C2_amended (v1 v2 : Var) (f1 f2 : Func)
    (h1 : '@' ∉ v1.name.data) (h2 : '@' ∉ v2.name.data) :
    node_key v1 (some f1) = node_key v2 (some f2) ↔
      (v1.name = v2.name ∧ f1.name = f2.name) := by
  constructor
  · intro h
    have hd : v1.name.data ++ '@' :: f1.name.data
        = v2.name.data ++ '@' :: f2.name.data := by
      have h' := congrArg String.data h
      simpa [node_key, String.data_append] using h'
    obtain ⟨e1, e2⟩ := append_sep_inj _ _ _ _ h1 h2 hd
    exact ⟨String.ext e1, String.ext e2⟩
  · rintro ⟨e1, e2⟩
    simp [node_key, e1, e2]

/-- Witness for the amended C2: with separator-free names, keys agree
when the names agree — here even though the two variable handles
differ in kind, only the names enter the key. -/
theorem claim_C2_amended_witness :
    node_key ⟨"x", VarCls.localV, false⟩ (some ⟨"f", [], []⟩)
      = node_key ⟨"x", VarCls.stateV, true⟩ (some ⟨"f", [], []⟩) :=
  (claim_C2_amended ⟨"x", VarCls.localV, false⟩ ⟨"x", VarCls.stateV, true⟩
    ⟨"f", [], []⟩ ⟨"f", [], []⟩ (by decide) (by decide)).mpr ⟨rfl, rfl⟩

end Taint

namespace Dep

/-- No stored dependency value anywhere in the map is a constant. -/
def depMapClean (m : DepMap) : Bool :=
  m.all (fun e => e.2.all (fun d => !d.isCst))

/-- `insertDep` with a variable value preserves cleanliness. -/
theorem insertDep_clean (b : BaseVar) : ∀ (m : DepMap) (k : PVal),
    depMapClean m = true → depMapClean (insertDep m k (PVal.var b)) = true := by
  intro m
  induction m with
  | nil =>
      intro k _
      simp [depMapClean, insertDep, PVal.isCst]
  | cons e rest ih =>
      intro k hm
      simp only [depMapClean, List.all_cons, Bool.and_eq_true] at hm
      obtain ⟨he, hrest⟩ := hm
      obtain ⟨k', ds⟩ := e
      simp only [insertDep]
      by_cases hk : k' = k
      · simp only [if_pos hk, depMapClean, List.all_cons, Bool.and_eq_true]
        refine ⟨?_, hrest⟩
        by_cases hd : PVal.var b ∈ ds
        · simpa [hd] using he
        · simpa [hd, PVal.isCst] using he
      · simp only [if_neg hk, depMapClean, List.all_cons, Bool.and_eq_true]
        exact ⟨he, ih k hrest⟩

/-- `addRead` preserves cleanliness: constants are skipped, variables
are inserted in non-SSA variable form. -/
theorem addRead_clean (l : BaseVar) (m : DepMap) (r : Operand)
    (hm : depMapClean m = true) : depMapClean (addRead l m r) = true := by
  cases r with
  | cst s => simpa [addRead] using hm
  | var v => exact insertDep_clean (non_ssa v) m (PVal.var l) hm

/-- Folding `addRead` over any read list preserves cleanliness. -/
theorem foldl_addRead_clean (l : BaseVar) : ∀ (reads : List Operand) (m : DepMap),
    depMapClean m = true → depMapClean (reads.foldl (addRead l) m) = true := by
  intro reads
  induction reads with
  | nil => intro m hm; simpa using hm
  | cons r rest ih =>
      intro m hm
      exact ih (addRead l m r) (addRead_clean l m r hm)

/-- `processOp` preserves cleanliness. -/
theorem processOp_clean (m : DepMap) (ir : IROp) (hm : depMapClean m = true) :
    depMapClean (processOp m ir) = true := by
  unfold processOp
  match hir : irReads ir with
  | none => simpa using hm
  | some (lv, reads) =>
      by_cases hs : lv.isStorage
      · simpa [hs] using hm
      · simpa [hs] using foldl_addRead_clean (resolveLValue lv) reads m hm

/-- Folding `processOp` over any operation list preserves cleanliness. -/
theorem foldl_processOp_clean : ∀ (ops : List IROp) (m : DepMap),
    depMapClean m = true → depMapClean (ops.foldl processOp m) = true := by
  intro ops
  induction ops with
  | nil => intro m hm; simpa using hm
  | cons ir rest ih =>
      intro m hm
      exact ih (processOp m ir) (processOp_clean m ir hm)

/-- Claim C6: for every unit, the direct-dependency map produced by
`compute_direct_dependencies` never contains a dependency on a
constant — every constant operand in a statement's read set is
skipped, so a statement depending only on literal constants
contributes no dependency value. -/
theorem claim_C6_no_constant_dependencies (c : IRContract) :
    depMapClean (compute_direct_dependencies c) = true :=
  foldl_processOp_clean (contractOps c) [] rfl

end Dep

namespace Taint

/-- The parameter `a` of the reachability scenario. -/
def c1a : Var := ⟨"a", VarCls.localV, true⟩

/-- The local `w` written from `a`. -/
def c1w : Var := ⟨"w", VarCls.localV, false⟩

/-- The expression `w = a` (its variable walk sees only `a` here). -/
def c1e : SExpr := ⟨"w = a", [c1a], []⟩

/-- The statement `w = a`. -/
def c1st : Stmt := ⟨some c1e, [c1a], [c1w], [], [], [], [1]⟩

/-- The function `f(a) { w = a }`. -/
def c1f : Func := ⟨"f", [c1a], [c1st]⟩

/-- A one-function contract with a trivial dependency oracle. -/
def c1C : Contract := ⟨[c1f], fun _ _ _ => false⟩

/-- The taint graph built from seed `(a, f)`. -/
def c1Build : Option (DiGraph × List Pair) :=
  buildLoop c1C 10 (initGraph c1a c1f) [(c1a, c1f)] []

/-- The built graph (the build succeeds, see the claim theorem). -/
def c1Graph : DiGraph := (c1Build.map Prod.fst).getD ⟨[], []⟩

/-- Claim C1 (code bug): on the taint graph built from seed `(a, f)` —
which contains the sink node `w@f` and even the edge `a@f → w@f` — the
reachability check raises `NodeNotFound` instead of returning a
result, because it looks the source up under the key `a@global`
(built with `func=None`) while every node of the graph is keyed by its
real function name; only the sink-absent branch returns
`(false, [])` as specified. -/
theorem claim_C1_sink_check_raises :
    c1Build.isSome = true ∧
    edgeMemB c1Graph (node_key c1a (some c1f)) (node_key c1w (some c1f)) = true ∧
    nodeMemB c1Graph (node_key c1a none) = false ∧
    check_sink_tainted c1Graph c1a c1w c1f = Except.error NxErr.nodeNotFound ∧
    check_sink_tainted c1Graph c1a ⟨"zz", VarCls.localV, false⟩ c1f
      = Except.ok (false, []) :=
  ⟨rfl, rfl, rfl, rfl, rfl⟩

end Taint

namespace Taint

/-- `addNode` leaves the edge list untouched. -/
theorem edgeMemB_addNode (g : DiGraph) (k : String) (d : NodeData) (a b : String) :
    edgeMemB (addNode g k d) a b = edgeMemB g a b := rfl

/-- `ensureNode` leaves the edge list untouched. -/
theorem ensureNode_edges (g : DiGraph) (k : String) :
    (ensureNode g k).edges = g.edges := by
  unfold ensureNode
  split
  · rfl
  · rfl

/-- Pair membership in an edge list after a `networkx` edge
insert/update: the old pairs plus the new pair. -/
theorem updEdges_any : ∀ (es : List (String × String × EdgeData)) (u v : String)
    (d : EdgeData) (a b : String),
    ((updEdges es u v d).any (fun e => e.1 == a && e.2.1 == b) = true) ↔
      (es.any (fun e => e.1 == a && e.2.1 == b) = true ∨ (u = a ∧ v = b)) := by
  intro es
  induction es with
  | nil =>
      intro u v d a b
      simp [updEdges]
  | cons e rest ih =>
      intro u v d a b
      obtain ⟨u', v', d'⟩ := e
      simp only [updEdges]
      by_cases he : u' = u ∧ v' = v
      · rw [if_pos he]
        obtain ⟨rfl, rfl⟩ := he
        simp [List.any_cons, Bool.or_eq_true, Bool.and_eq_true, beq_iff_eq, or_assoc,
          or_comm, or_left_comm]
      · rw [if_neg he]
        simp only [List.any_cons, Bool.or_eq_true, Bool.and_eq_true, beq_iff_eq]
        rw [ih u v d a b]
        simp [or_assoc]

/-- Edge membership after `add_edge`: the old edges plus the new pair. -/
theorem edgeMemB_addEdge (g : DiGraph) (u v : String) (d : EdgeData) (a b : String) :
    edgeMemB (addEdge g u v d) a b = true ↔
      (edgeMemB g a b = true ∨ (u = a ∧ v = b)) := by
  unfold addEdge edgeMemB
  simp only
  rw [ensureNode_edges, ensureNode_edges]
  exact updEdges_any g.edges u v d a b

/-- Key membership in a node list after a `networkx` node
insert/update: the old keys plus the new key. -/
theorem updNodes_any : ∀ (ns : List (String × NodeData)) (k : String) (d : NodeData)
    (a : String),
    ((updNodes ns k d).any (fun n => n.1 == a) = true) ↔
      (ns.any (fun n => n.1 == a) = true ∨ k = a) := by
  intro ns
  induction ns with
  | nil =>
      intro k d a
      simp [updNodes]
  | cons n rest ih =>
      intro k d a
      obtain ⟨k', d'⟩ := n
      simp only [updNodes]
      by_cases he : k' = k
      · rw [if_pos he]
        subst he
        simp [List.any_cons, or_assoc, or_comm, or_left_comm]
      · rw [if_neg he]
        simp only [List.any_cons, Bool.or_eq_true, beq_iff_eq]
        rw [ih k d a]
        simp [or_assoc]

/-- Node membership after `add_node`. -/
theorem nodeMemB_addNode (g : DiGraph) (k : String) (d : NodeData) (a : String) :
    nodeMemB (addNode g k d) a = true ↔ (nodeMemB g a = true ∨ k = a) := by
  unfold addNode nodeMemB
  exact updNodes_any g.nodes k d a

/-- Node membership after endpoint auto-creation. -/
theorem nodeMemB_ensureNode (g : DiGraph) (k : String) (a : String) :
    nodeMemB (ensureNode g k) a = true ↔ (nodeMemB g a = true ∨ k = a) := by
  unfold ensureNode
  by_cases h : nodeMemB g k
  · rw [if_pos h]
    constructor
    · exact Or.inl
    · rintro (ha | rfl)
      · exact ha
      · exact h
  · rw [if_neg h]
    unfold nodeMemB
    simp [List.any_append]

/-- Node membership after `add_edge` (both endpoints are ensured). -/
theorem nodeMemB_addEdge (g : DiGraph) (u v : String) (d : EdgeData) (a : String) :
    nodeMemB (addEdge g u v d) a = true ↔
      (nodeMemB g a = true ∨ u = a ∨ v = a) := by
  unfold addEdge
  simp only
  have h1 : nodeMemB { ensureNode (ensureNode g u) v with
      edges := updEdges (ensureNode (ensureNode g u) v).edges u v d } a
      = nodeMemB (ensureNode (ensureNode g u) v) a := rfl
  rw [h1, nodeMemB_ensureNode, nodeMemB_ensureNode]
  tauto

end Taint

namespace Taint

/-- A graph property preserved by both primitive graph mutations of the
analyzer. -/
def GraphPres (Q : DiGraph → Prop) : Prop :=
  (∀ g k d, Q g → Q (addNode g k d)) ∧ (∀ g u v d, Q g → Q (addEdge g u v d))

/-- Folding any step preserves a property of the graph component. -/
theorem foldl_fst_pres {α : Type} (step : (DiGraph × List Pair) → α → DiGraph × List Pair)
    (Q : DiGraph → Prop) (hstep : ∀ acc x, Q acc.1 → Q (step acc x).1) :
    ∀ (l : List α) (acc : DiGraph × List Pair), Q acc.1 → Q ((l.foldl step acc).1) := by
  intro l
  induction l with
  | nil => intro acc h; simpa using h
  | cons x rest ih =>
      intro acc h
      rw [List.foldl_cons]
      exact ih (step acc x) (hstep acc x h)

/-- A property established at some list element and preserved by every
step holds of the whole fold. -/
theorem foldl_fst_estab {α : Type} (step : (DiGraph × List Pair) → α → DiGraph × List Pair)
    (Q : DiGraph → Prop) (hpres : ∀ acc x, Q acc.1 → Q (step acc x).1)
    (x : α) (hest : ∀ acc, Q ((step acc x).1)) :
    ∀ (l : List α) (acc : DiGraph × List Pair), x ∈ l → Q ((l.foldl step acc).1) := by
  intro l acc hx
  obtain ⟨s, t, rfl⟩ := List.append_of_mem hx
  rw [List.foldl_append, List.foldl_cons]
  exact foldl_fst_pres step Q hpres t _ (hest _)

/-- `addTaintNodeEdge` preserves any `GraphPres` property. -/
theorem pres_addTaintNodeEdge (Q : DiGraph → Prop) (hQ : GraphPres Q)
    (func : Func) (ck txt : String) (ln : Option Nat) (pr : List Pair)
    (acc : DiGraph × List Pair) (w : Var) (h : Q acc.1) :
    Q (addTaintNodeEdge func ck txt ln pr acc w).1 := by
  unfold addTaintNodeEdge
  exact hQ.2 _ _ _ _ (hQ.1 _ _ _ h)

/-- `processFunctionTaint` preserves any `GraphPres` property. -/
theorem pres_processFunctionTaint (Q : DiGraph → Prop) (hQ : GraphPres Q)
    (c : Contract) (func : Func) (var : Var) (ck : String) (pr : List Pair)
    (acc : DiGraph × List Pair) (h : Q acc.1) :
    Q (processFunctionTaint c func var ck pr acc).1 := by
  unfold processFunctionTaint
  refine foldl_fst_pres _ Q ?_ _ acc h
  intro a st ha
  have hHeur : Q ((processStmtHeur func var ck pr st a).1) := by
    cases hE : st.expression with
    | none =>
        simp only [processStmtHeur, hE]
        exact ha
    | some e =>
        simp only [processStmtHeur, hE]
        by_cases hv : var ∈ e.vars
        · rw [if_pos hv]
          refine foldl_fst_pres _ Q ?_ _ a ha
          intro a2 w ha2
          unfold heurStep
          by_cases hw : w ∈ e.vars
          · rwa [if_pos hw]
          · rw [if_neg hw]
            exact pres_addTaintNodeEdge Q hQ func ck e.text st.lines.head? pr a2 w ha2
        · rwa [if_neg hv]
  unfold processStmtDep
  refine foldl_fst_pres _ Q ?_ _ _ hHeur
  intro a2 w ha2
  unfold depStep
  by_cases hd : c.isDep w var func
  · rw [if_pos hd]
    exact pres_addTaintNodeEdge Q hQ func ck (exprStr st) st.lines.head? pr a2 w ha2
  · rwa [if_neg hd]

/-- `processStateVarTaint` preserves any `GraphPres` property. -/
theorem pres_processStateVarTaint (Q : DiGraph → Prop) (hQ : GraphPres Q)
    (c : Contract) (func : Func) (var : Var) (ck : String) (pr : List Pair)
    (acc : DiGraph × List Pair) (h : Q acc.1) :
    Q (processStateVarTaint c func var ck pr acc).1 := by
  unfold processStateVarTaint
  refine foldl_fst_pres _ Q ?_ _ acc h
  intro a of ha
  by_cases hf : of = func
  · rwa [if_pos hf]
  · rw [if_neg hf]
    refine foldl_fst_pres _ Q ?_ _ a ha
    intro a2 st ha2
    unfold stateStep
    by_cases hr : var ∈ st.stateRead
    · rw [if_pos hr]
      exact hQ.2 _ _ _ _ (hQ.1 _ _ _ ha2)
    · rwa [if_neg hr]

/-- `processParameterTaint` preserves any `GraphPres` property. -/
theorem pres_processParameterTaint (Q : DiGraph → Prop) (hQ : GraphPres Q)
    (c : Contract) (func : Func) (var : Var) (ck : String) (pr : List Pair)
    (acc : DiGraph × List Pair) (h : Q acc.1) :
    Q (processParameterTaint c func var ck pr acc).1 := by
  unfold processParameterTaint
  refine foldl_fst_pres _ Q ?_ _ acc h
  intro a of ha
  refine foldl_fst_pres _ Q ?_ _ a ha
  intro a2 st ha2
  refine foldl_fst_pres _ Q ?_ _ a2 ha2
  intro a3 callee ha3
  unfold paramCallStep
  by_cases hc : callee = func.name
  · rw [if_pos hc]
    cases hE : st.expression with
    | none =>
        simp only [hE]
        exact ha3
    | some e =>
        simp only [hE]
        cases hA : e.arguments[func.parameters.indexOf var]? with
        | none =>
            simp only [hA]
            exact ha3
        | some arg =>
            simp only [hA]
            refine foldl_fst_pres _ Q ?_ _ a3 ha3
            intro a4 av ha4
            unfold paramArgStep
            exact hQ.2 _ _ _ _ (hQ.1 _ _ _ ha4)
  · rwa [if_neg hc]

/-- The whole worklist loop preserves any `GraphPres` property. -/
theorem pres_buildLoop (Q : DiGraph → Prop) (hQ : GraphPres Q) (c : Contract) :
    ∀ (fuel : Nat) (g : DiGraph) (tp pr : List Pair) (G : DiGraph) (p : List Pair),
      buildLoop c fuel g tp pr = some (G, p) → Q g → Q G := by
  intro fuel
  induction fuel with
  | zero =>
      intro g tp pr G p hrun hg
      match tp with
      | [] =>
          simp only [buildLoop, Option.some.injEq, Prod.mk.injEq] at hrun
          rw [← hrun.1]
          exact hg
      | x :: rest => simp [buildLoop] at hrun
  | succ fuel ih =>
      intro g tp pr G p hrun hg
      match tp with
      | [] =>
          simp only [buildLoop, Option.some.injEq, Prod.mk.injEq] at hrun
          rw [← hrun.1]
          exact hg
      | (var, func) :: rest =>
          rw [buildLoop] at hrun
          by_cases hm : (var, func) ∈ pr
          · rw [if_pos hm] at hrun
            exact ih g rest pr G p hrun hg
          · rw [if_neg hm] at hrun
            refine ih _ _ _ G p hrun ?_
            have h1 : Q ((processFunctionTaint c func var (node_key var (some func))
                ((var, func) :: pr) (g, rest)).1) :=
              pres_processFunctionTaint Q hQ _ _ _ _ _ _ hg
            have h2 : Q ((if var.cls = VarCls.stateV then
                processStateVarTaint c func var (node_key var (some func))
                  ((var, func) :: pr)
                  (processFunctionTaint c func var (node_key var (some func))
                    ((var, func) :: pr) (g, rest))
              else
                processFunctionTaint c func var (node_key var (some func))
                  ((var, func) :: pr) (g, rest)).1) := by
              by_cases hs : var.cls = VarCls.stateV
              · rw [if_pos hs]
                exact pres_processStateVarTaint Q hQ _ _ _ _ _ _ h1
              · rwa [if_neg hs]
            unfold buildStep
            by_cases hp : var ∈ func.parameters
            · rw [if_pos hp]
              exact pres_processParameterTaint Q hQ _ _ _ _ _ _ h2
            · rw [if_neg hp]
              exact h2

end Taint

namespace Taint

/-- Edge membership after the add-node/add-edge/append step shared by
both rules of `_process_function_taint`. -/
theorem addTaintNodeEdge_edge (func : Func) (ck txt : String) (ln : Option Nat)
    (pr : List Pair) (acc : DiGraph × List Pair) (w : Var) (a b : String) :
    edgeMemB (addTaintNodeEdge func ck txt ln pr acc w).1 a b = true ↔
      (edgeMemB acc.1 a b = true ∨ (ck = a ∧ node_key w (some func) = b)) := by
  simp only [addTaintNodeEdge]
  rw [edgeMemB_addEdge]
  rw [show edgeMemB (addNode acc.1 (node_key w (some func))
      ⟨some w, some func, some (get_var_type w)⟩) a b = edgeMemB acc.1 a b from rfl]

/-- Edge membership after folding the heuristic step over a written
list: exactly the old edges plus one edge from the current key to each
written variable not occurring in the expression's variables. -/
theorem foldl_heurStep_edge (func : Func) (ck : String) (e : SExpr) (st : Stmt)
    (pr : List Pair) : ∀ (ws : List Var) (acc : DiGraph × List Pair) (a b : String),
    edgeMemB ((ws.foldl (heurStep func ck e st pr) acc).1) a b = true ↔
      (edgeMemB acc.1 a b = true ∨
        ∃ w, w ∈ ws ∧ w ∉ e.vars ∧ ck = a ∧ node_key w (some func) = b) := by
  intro ws
  induction ws with
  | nil =>
      intro acc a b
      simp
  | cons w rest ih =>
      intro acc a b
      rw [List.foldl_cons]
      by_cases hw : w ∈ e.vars
      · rw [show heurStep func ck e st pr acc w = acc from by simp [heurStep, hw]]
        rw [ih]
        constructor
        · rintro (h | ⟨w', hw', hnv, rfl, rfl⟩)
          · exact Or.inl h
          · exact Or.inr ⟨w', List.mem_cons_of_mem _ hw', hnv, rfl, rfl⟩
        · rintro (h | ⟨w', hw', hnv, rfl, rfl⟩)
          · exact Or.inl h
          · rcases List.mem_cons.mp hw' with rfl | hw''
            · exact absurd hw hnv
            · exact Or.inr ⟨w', hw'', hnv, rfl, rfl⟩
      · rw [show heurStep func ck e st pr acc w
            = addTaintNodeEdge func ck e.text st.lines.head? pr acc w from by
              simp [heurStep, hw]]
        rw [ih, addTaintNodeEdge_edge]
        constructor
        · rintro ((h | ⟨rfl, rfl⟩) | ⟨w', hw', hnv, rfl, rfl⟩)
          · exact Or.inl h
          · exact Or.inr ⟨w, List.mem_cons_self w rest, hw, rfl, rfl⟩
          · exact Or.inr ⟨w', List.mem_cons_of_mem _ hw', hnv, rfl, rfl⟩
        · rintro (h | ⟨w', hw', hnv, rfl, rfl⟩)
          · exact Or.inl (Or.inl h)
          · rcases List.mem_cons.mp hw' with rfl | hw''
            · exact Or.inl (Or.inr ⟨rfl, rfl⟩)
            · exact Or.inr ⟨w', hw'', hnv, rfl, rfl⟩

/-- The seed variable of the C4 scenario, read by the statement. -/
def c4y : Var := ⟨"y", VarCls.localV, false⟩

/-- The written variable of the C4 scenario. -/
def c4x : Var := ⟨"x", VarCls.localV, false⟩

/-- The expression `x = y`: the reflective variable walk sees both the
written left-hand side `x` and the read `y`. -/
def c4e : SExpr := ⟨"x = y", [c4x, c4y], []⟩

/-- The statement `x = y`: reads `y`, writes `x`. -/
def c4st : Stmt := ⟨some c4e, [c4y], [c4x], [], [], [], [3]⟩

/-- The function `g() { x = y }`. -/
def c4f : Func := ⟨"g", [], [c4st]⟩

/-- A one-function contract whose precise dependency oracle is empty,
isolating the heuristic rule. -/
def c4C : Contract := ⟨[c4f], fun _ _ _ => false⟩

/-- The taint graph built from seed `(y, g)`. -/
def c4Build : Option (DiGraph × List Pair) :=
  buildLoop c4C 10 (initGraph c4y c4f) [(c4y, c4f)] []

/-- The built C4 graph. -/
def c4Graph : DiGraph := (c4Build.map Prod.fst).getD ⟨[], []⟩

/-- Counterexample to C4: in `x = y` the tainted `y` occurs among the
statement's referenced variables, `x` is written and is *not* in the
statement's read set, yet no edge `y → x` is created — the code
excludes any written variable occurring anywhere in the expression's
variables (here `x`, the assignment target), not merely those in the
read set. -/
theorem claim_C4_counterexample :
    c4Build.isSome = true ∧
    c4y ∈ get_expression_variables c4e ∧
    c4x ∈ writtenVars c4st ∧
    c4x ∉ stmtReadSet c4st ∧
    edgeMemB c4Graph (node_key c4y (some c4f)) (node_key c4x (some c4f)) = false := by
  decide

/-- Amended C4: in the heuristic same-function rule, for a statement
with an expression, an edge from the current key to a written
variable's node exists in the processed graph iff it was already there
or the current variable occurs in the expression's variable set and
some written variable with the same node key does **not** occur in the
expression's variable set — i.e. the exclusion is membership in the
full expression-variable set (which contains the written occurrences,
e.g. an assignment's target), not membership in the statement's read
set. -/
theorem claim_C4_amended (func : Func) (var w : Var) (st : Stmt) (e : SExpr)
    (processed : List Pair) (g : DiGraph) (tp : List Pair) (ck : String)
    (he : st.expression = some e) :
    edgeMemB (processStmtHeur func var ck processed st (g, tp)).1 ck
        (node_key w (some func)) = true ↔
      (edgeMemB g ck (node_key w (some func)) = true ∨
        (var ∈ e.vars ∧ ∃ w', w' ∈ writtenVars st ∧
          node_key w' (some func) = node_key w (some func) ∧ w' ∉ e.vars)) := by
  simp only [processStmtHeur, he]
  by_cases hv : var ∈ e.vars
  · rw [if_pos hv, foldl_heurStep_edge]
    constructor
    · rintro (h | ⟨w', hw', hnv, _, hk⟩)
      · exact Or.inl h
      · exact Or.inr ⟨hv, w', hw', hk, hnv⟩
    · rintro (h | ⟨_, w', hw', hk, hnv⟩)
      · exact Or.inl h
      · exact Or.inr ⟨w', hw', hnv, rfl, hk⟩
  · rw [if_neg hv]
    simp [hv]

/-- Witness for the amended C4: processing the statement `w = a` of the
C1 scenario (where the written `w` does not occur in the expression's
variables) creates the edge from the seed's key to `w`'s key. -/
theorem claim_C4_amended_witness :
    edgeMemB (processStmtHeur c1f c1a (node_key c1a (some c1f)) [] c1st
        (initGraph c1a c1f, [])).1 (node_key c1a (some c1f))
      (node_key c1w (some c1f)) = true :=
  (claim_C4_amended c1f c1a c1w c1st c1e [] (initGraph c1a c1f) []
      (node_key c1a (some c1f)) rfl).mpr
    (Or.inr ⟨by decide, c1w, by decide, rfl, by decide⟩)

end Taint

namespace Taint

/-- The ordered pairs of endpoints of a graph's stored edges. -/
def edgePairs (g : DiGraph) : List (String × String) :=
  g.edges.map (fun e => (e.1, e.2.1))

/-- The pair list after a `networkx` edge insert/update: unchanged when
the pair was present (in-place attribute replacement), appended
otherwise. -/
theorem updEdges_pairs : ∀ (es : List (String × String × EdgeData)) (u v : String)
    (d : EdgeData),
    (updEdges es u v d).map (fun e => (e.1, e.2.1)) =
      if es.any (fun e => e.1 == u && e.2.1 == v) then
        es.map (fun e => (e.1, e.2.1))
      else es.map (fun e => (e.1, e.2.1)) ++ [(u, v)] := by
  intro es
  induction es with
  | nil =>
      intro u v d
      simp [updEdges]
  | cons e rest ih =>
      intro u v d
      obtain ⟨u', v', d'⟩ := e
      simp only [updEdges]
      by_cases he : u' = u ∧ v' = v
      · rw [if_pos he]
        obtain ⟨rfl, rfl⟩ := he
        simp [List.any_cons]
      · rw [if_neg he]
        have hb : (u' == u && v' == v) = false := by
          rw [Bool.and_eq_false_iff]
          rcases not_and_or.mp he with h | h
          · exact Or.inl (beq_eq_false_iff_ne.mpr h)
          · exact Or.inr (beq_eq_false_iff_ne.mpr h)
        simp only [List.map_cons, ih u v d, List.any_cons, hb, Bool.false_or]
        by_cases hr : rest.any (fun e => e.1 == u && e.2.1 == v)
        · rw [if_pos hr, if_pos hr]
        · rw [if_neg hr, if_neg hr]
          rfl

/-- `add_edge` keeps the edge-pair list duplicate-free. -/
theorem pairsNodup_addEdge (g : DiGraph) (u v : String) (d : EdgeData)
    (h : (edgePairs g).Nodup) : (edgePairs (addEdge g u v d)).Nodup := by
  have hE : edgePairs (addEdge g u v d)
      = (updEdges g.edges u v d).map (fun e => (e.1, e.2.1)) := by
    unfold edgePairs addEdge
    simp only
    rw [ensureNode_edges, ensureNode_edges]
  rw [hE, updEdges_pairs]
  by_cases ha : g.edges.any (fun e => e.1 == u && e.2.1 == v)
  · rw [if_pos ha]
    exact h
  · rw [if_neg ha]
    rw [List.nodup_append]
    refine ⟨h, List.nodup_singleton _, ?_⟩
    intro x hx hx1
    rcases List.mem_singleton.mp hx1 with rfl
    rcases List.mem_map.mp hx with ⟨e, he, hpe⟩
    have : (e.1 == u && e.2.1 == v) = true := by
      have h1 : e.1 = u := congrArg Prod.fst hpe
      have h2 : e.2.1 = v := congrArg Prod.snd hpe
      simp [h1, h2]
    exact ha (List.any_eq_true.mpr ⟨e, he, this⟩)

/-- `add_node` never touches edges. -/
theorem edgePairs_addNode (g : DiGraph) (k : String) (d : NodeData) :
    edgePairs (addNode g k d) = edgePairs g := rfl

/-- Duplicate-freeness of edge pairs is a `GraphPres` property. -/
theorem pairsNodup_GraphPres : GraphPres (fun g => (edgePairs g).Nodup) := by
  constructor
  · intro g k d h
    rw [edgePairs_addNode]
    exact h
  · intro g u v d h
    exact pairsNodup_addEdge g u v d h

/-- The two justifications of the C3 scenario differ: `w = y`. -/
def c3e1 : SExpr := ⟨"w = y", [⟨"y", VarCls.localV, false⟩], []⟩

/-- Second justification of the C3 scenario: `w = y + z`. -/
def c3e2 : SExpr := ⟨"w = y + z", [⟨"y", VarCls.localV, false⟩], []⟩

/-- First statement writing `w` from `y`. -/
def c3st1 : Stmt := ⟨some c3e1, [⟨"y", VarCls.localV, false⟩],
  [⟨"w", VarCls.localV, false⟩], [], [], [], [1]⟩

/-- Second statement writing `w` from `y`, different justification. -/
def c3st2 : Stmt := ⟨some c3e2, [⟨"y", VarCls.localV, false⟩],
  [⟨"w", VarCls.localV, false⟩], [], [], [], [2]⟩

/-- The function `h() { w = y; w = y + z }`. -/
def c3f : Func := ⟨"h", [], [c3st1, c3st2]⟩

/-- A one-function contract with an empty dependency oracle. -/
def c3C : Contract := ⟨[c3f], fun _ _ _ => false⟩

/-- The taint graph built from seed `(y, h)`. -/
def c3Build : Option (DiGraph × List Pair) :=
  buildLoop c3C 10 (initGraph ⟨"y", VarCls.localV, false⟩ c3f)
    [(⟨"y", VarCls.localV, false⟩, c3f)] []

/-- The built C3 graph. -/
def c3Graph : DiGraph := (c3Build.map Prod.fst).getD ⟨[], []⟩

/-- Counterexample to C3: both statements fire the heuristic rule for
the same ordered pair `y@h → w@h` with different justifications
(`w = y` and then `w = y + z`), yet the built graph holds exactly one
edge between the pair, carrying only the last justification — the
second `add_edge` overwrote the first instead of adding a parallel
edge. -/
theorem claim_C3_counterexample :
    c3Build.isSome = true ∧
    c3e1.text ≠ c3e2.text ∧
    countEdges c3Graph (node_key ⟨"y", VarCls.localV, false⟩ (some c3f))
      (node_key ⟨"w", VarCls.localV, false⟩ (some c3f)) = 1 ∧
    edgeDataOf c3Graph (node_key ⟨"y", VarCls.localV, false⟩ (some c3f))
      (node_key ⟨"w", VarCls.localV, false⟩ (some c3f))
      = some ⟨"w = y + z", some 2⟩ := by
  decide

/-- Amended C3: the taint graph is a simple digraph — construction
never removes an edge (every ordered pair present before `add_node` or
`add_edge` is present after), but it also never keeps parallel edges:
re-adding an existing ordered pair overwrites its justification in
place, so any graph produced by the worklist loop has at most one
stored edge per ordered pair. -/
theorem claim_C3_amended :
    (∀ (g : DiGraph) (u v : String) (d : EdgeData) (a b : String),
      edgeMemB g a b = true → edgeMemB (addEdge g u v d) a b = true) ∧
    (∀ (g : DiGraph) (k : String) (d : NodeData) (a b : String),
      edgeMemB g a b = true → edgeMemB (addNode g k d) a b = true) ∧
    (∀ (c : Contract) (fuel : Nat) (g : DiGraph) (tp pr : List Pair)
      (G : DiGraph) (p : List Pair),
      buildLoop c fuel g tp pr = some (G, p) → (edgePairs g).Nodup →
        (edgePairs G).Nodup) := by
  refine ⟨?_, ?_, ?_⟩
  · intro g u v d a b h
    exact (edgeMemB_addEdge g u v d a b).mpr (Or.inl h)
  · intro g k d a b h
    rw [edgeMemB_addNode]
    exact h
  · intro c fuel g tp pr G p hrun hg
    exact pres_buildLoop (fun g => (edgePairs g).Nodup) pairsNodup_GraphPres
      c fuel g tp pr G p hrun hg

/-- Witness for the amended C3: an existing concrete edge survives a
later `add_edge` of a different pair, and the concrete built C3 graph
has duplicate-free edge pairs. -/
theorem claim_C3_amended_witness :
    edgeMemB (addEdge (addEdge ⟨[], []⟩ "a@f" "b@f" ⟨"j1", none⟩)
        "b@f" "c@f" ⟨"j2", none⟩) "a@f" "b@f" = true ∧
    (edgePairs c3Graph).Nodup := by
  constructor
  · exact claim_C3_amended.1 (addEdge ⟨[], []⟩ "a@f" "b@f" ⟨"j1", none⟩)
      "b@f" "c@f" ⟨"j2", none⟩ "a@f" "b@f" (by decide)
  · exact claim_C3_amended.2.2 c3C 10 (initGraph ⟨"y", VarCls.localV, false⟩ c3f)
      [(⟨"y", VarCls.localV, false⟩, c3f)] [] c3Graph
      [(⟨"w", VarCls.localV, false⟩, c3f), (⟨"y", VarCls.localV, false⟩, c3f)]
      (by decide) (by decide)

end Taint

namespace Taint

/-- One internal-call step of `_process_parameter_taint` preserves any
`GraphPres` property. -/
theorem pres_paramCallStep (Q : DiGraph → Prop) (hQ : GraphPres Q)
    (func : Func) (var : Var) (ck : String) (of : Func) (st : Stmt) (idx : Nat)
    (pr : List Pair) (acc : DiGraph × List Pair) (callee : String) (h : Q acc.1) :
    Q ((paramCallStep func var ck of st idx pr acc callee).1) := by
  unfold paramCallStep
  by_cases hc : callee = func.name
  · rw [if_pos hc]
    cases hE : st.expression with
    | none =>
        simp only [hE]
        exact h
    | some e =>
        simp only [hE]
        cases hA : e.arguments[idx]? with
        | none =>
            simp only [hA]
            exact h
        | some arg =>
            simp only [hA]
            refine foldl_fst_pres _ Q ?_ _ acc h
            intro a4 av ha4
            unfold paramArgStep
            exact hQ.2 _ _ _ _ (hQ.1 _ _ _ ha4)
  · rwa [if_neg hc]

/-- Claim C8: call-argument propagation.  When the current tainted
variable is a parameter of its owning function, then for every
statement of every contract function whose internal calls include this
function and whose expression carries an argument at the parameter's
position, every variable of that argument expression gets a node in
the caller's context and an edge directed from the argument node to
the current (callee-parameter) key. -/
theorem claim_C8_call_argument_propagation (c : Contract) (func of : Func)
    (var av : Var) (st : Stmt) (e : SExpr) (arg : ArgExpr)
    (g : DiGraph) (tp pr : List Pair) (ck : String)
    (hvar : var ∈ func.parameters)
    (hof : of ∈ c.functions) (hst : st ∈ of.nodes)
    (hcall : func.name ∈ st.internalCalls)
    (he : st.expression = some e)
    (harg : e.arguments[func.parameters.indexOf var]? = some arg)
    (hav : av ∈ getArgVars arg) :
    nodeMemB (processParameterTaint c func var ck pr (g, tp)).1
        (node_key av (some of)) = true ∧
    edgeMemB (processParameterTaint c func var ck pr (g, tp)).1
        (node_key av (some of)) ck = true := by
  have hQ : GraphPres (fun gr => nodeMemB gr (node_key av (some of)) = true ∧
      edgeMemB gr (node_key av (some of)) ck = true) := by
    constructor
    · intro g0 k d h0
      exact ⟨(nodeMemB_addNode g0 k d _).mpr (Or.inl h0.1), by
        rw [edgeMemB_addNode]
        exact h0.2⟩
    · intro g0 u v d h0
      exact ⟨(nodeMemB_addEdge g0 u v d _).mpr (Or.inl h0.1),
        (edgeMemB_addEdge g0 u v d _ _).mpr (Or.inl h0.2)⟩
  have hArgStep : ∀ (acc : DiGraph × List Pair),
      nodeMemB ((paramArgStep func var ck of st pr acc av).1)
          (node_key av (some of)) = true ∧
      edgeMemB ((paramArgStep func var ck of st pr acc av).1)
          (node_key av (some of)) ck = true := by
    intro acc
    unfold paramArgStep
    simp only
    constructor
    · rw [show (node_key av (some of)) = node_key av (some of) from rfl]
      refine (nodeMemB_addEdge _ _ _ _ _).mpr (Or.inr (Or.inl rfl))
    · exact (edgeMemB_addEdge _ _ _ _ _ _).mpr (Or.inr ⟨rfl, rfl⟩)
  have hCallStep : ∀ (acc : DiGraph × List Pair),
      nodeMemB ((paramCallStep func var ck of st (func.parameters.indexOf var)
          pr acc func.name).1) (node_key av (some of)) = true ∧
      edgeMemB ((paramCallStep func var ck of st (func.parameters.indexOf var)
          pr acc func.name).1) (node_key av (some of)) ck = true := by
    intro acc
    unfold paramCallStep
    rw [if_pos rfl]
    simp only [he, harg]
    exact foldl_fst_estab (paramArgStep func var ck of st pr)
      (fun gr => nodeMemB gr (node_key av (some of)) = true ∧
        edgeMemB gr (node_key av (some of)) ck = true)
      (fun a x hx => hQ.2 _ _ _ _ (hQ.1 _ _ _ hx))
      av hArgStep (getArgVars arg) acc hav
  have hStmtStep : ∀ (acc : DiGraph × List Pair),
      nodeMemB ((st.internalCalls.foldl
          (paramCallStep func var ck of st (func.parameters.indexOf var) pr)
          acc).1) (node_key av (some of)) = true ∧
      edgeMemB ((st.internalCalls.foldl
          (paramCallStep func var ck of st (func.parameters.indexOf var) pr)
          acc).1) (node_key av (some of)) ck = true := by
    intro acc
    exact foldl_fst_estab
      (paramCallStep func var ck of st (func.parameters.indexOf var) pr)
      (fun gr => nodeMemB gr (node_key av (some of)) = true ∧
        edgeMemB gr (node_key av (some of)) ck = true)
      (fun a x hx => pres_paramCallStep _ hQ func var ck of st _ pr a x hx)
      func.name hCallStep st.internalCalls acc hcall
  unfold processParameterTaint
  simp only
  refine foldl_fst_estab _
    (fun gr => nodeMemB gr (node_key av (some of)) = true ∧
      edgeMemB gr (node_key av (some of)) ck = true) ?_ of ?_ c.functions (g, tp) hof
  · intro a of' ha
    refine foldl_fst_pres _
      (fun gr => nodeMemB gr (node_key av (some of)) = true ∧
        edgeMemB gr (node_key av (some of)) ck = true) ?_ of'.nodes a ha
    intro a2 st' ha2
    refine foldl_fst_pres _
      (fun gr => nodeMemB gr (node_key av (some of)) = true ∧
        edgeMemB gr (node_key av (some of)) ck = true) ?_ st'.internalCalls a2 ha2
    intro a3 callee ha3
    exact pres_paramCallStep _ hQ func var ck of' st' _ pr a3 callee ha3
  · intro acc
    refine foldl_fst_estab _
      (fun gr => nodeMemB gr (node_key av (some of)) = true ∧
        edgeMemB gr (node_key av (some of)) ck = true) ?_ st hStmtStep of.nodes acc hst
    intro a2 st' ha2
    refine foldl_fst_pres _
      (fun gr => nodeMemB gr (node_key av (some of)) = true ∧
        edgeMemB gr (node_key av (some of)) ck = true) ?_ st'.internalCalls a2 ha2
    intro a3 callee ha3
    exact pres_paramCallStep _ hQ func var ck of st' _ pr a3 callee ha3

/-- The callee parameter `p` of the C8 scenario. -/
def c8p : Var := ⟨"p", VarCls.localV, true⟩

/-- The caller argument `x` of the C8 scenario. -/
def c8x : Var := ⟨"x", VarCls.localV, true⟩

/-- The callee `inner(p)`. -/
def c8inner : Func := ⟨"inner", [c8p], []⟩

/-- The argument expression `x` at position 0 of the call. -/
def c8arg : ArgExpr := ⟨"x", [c8x]⟩

/-- The call expression `inner(x)`. -/
def c8e : SExpr := ⟨"inner(x)", [c8x], [c8arg]⟩

/-- The statement `inner(x)` in the caller. -/
def c8st : Stmt := ⟨some c8e, [c8x], [], [], [], ["inner"], [7]⟩

/-- The caller `outer(x) { inner(x) }`. -/
def c8outer : Func := ⟨"outer", [c8x], [c8st]⟩

/-- The two-function contract of the C8 scenario. -/
def c8C : Contract := ⟨[c8inner, c8outer], fun _ _ _ => false⟩

/-- Witness for C8: processing parameter `p` of `inner` against the
call `inner(x)` in `outer` creates the node `x@outer` and the edge
`x@outer → p@inner`. -/
theorem claim_C8_witness :
    nodeMemB (processParameterTaint c8C c8inner c8p
        (node_key c8p (some c8inner)) [] (initGraph c8p c8inner, [])).1
      (node_key c8x (some c8outer)) = true ∧
    edgeMemB (processParameterTaint c8C c8inner c8p
        (node_key c8p (some c8inner)) [] (initGraph c8p c8inner, [])).1
      (node_key c8x (some c8outer)) (node_key c8p (some c8inner)) = true :=
  claim_C8_call_argument_propagation c8C c8inner c8outer c8p c8x c8st c8e c8arg
    (initGraph c8p c8inner) [] [] (node_key c8p (some c8inner))
    (by decide) (by decide) (by decide) (by decide) rfl (by decide) (by decide)

end Taint

namespace Dep

/-- Invariant of every path returned by `dfs` when the current variable
is on the visited path: the path is nonempty, ends at the current
variable, starts at an input variable, repeats no variable, and its
non-final elements avoid the visited path entirely. -/
theorem dfs_path_inv (dd : DepMap) (inp : List PVal) :
    ∀ (fuel : Nat) (cur : PVal) (vis : List PVal) (p : List PVal),
      cur ∈ vis → p ∈ dfs dd inp fuel cur vis →
        p ≠ [] ∧ p.getLast? = some cur ∧
          (∃ h0, h0 ∈ inp ∧ p.head? = some h0) ∧ p.Nodup ∧
          ∀ x ∈ p.dropLast, x ∉ vis := by
  intro fuel
  induction fuel with
  | zero =>
      intro cur vis p _ hp
      simp [dfs] at hp
  | succ fuel ih =>
      intro cur vis p hcv hp
      rw [dfs] at hp
      by_cases hin : cur ∈ inp
      · rw [if_pos hin] at hp
        rcases List.mem_singleton.mp hp with rfl
        exact ⟨by simp, by simp, ⟨cur, hin, by simp⟩, by simp, by simp⟩
      · rw [if_neg hin] at hp
        cases hL : lookupDep dd cur with
        | none =>
            rw [hL] at hp
            simp at hp
        | some precs =>
            rw [hL] at hp
            rw [List.mem_flatten] at hp
            obtain ⟨l, hl, hpl⟩ := hp
            rw [List.mem_map] at hl
            obtain ⟨pr, _hpr, rfl⟩ := hl
            by_cases hprv : pr ∈ vis
            · rw [if_pos hprv] at hpl
              simp at hpl
            · rw [if_neg hprv] at hpl
              rw [List.mem_map] at hpl
              obtain ⟨sp, hsp, rfl⟩ := hpl
              obtain ⟨hne, hlast, ⟨h0, h0i, hhead⟩, hnd, hdl⟩ :=
                ih pr (vis ++ [pr]) sp (by simp) hsp
              have hlast' : sp.getLast hne = pr := by
                have := List.getLast?_eq_getLast sp hne
                rw [this] at hlast
                exact (Option.some.injEq _ _).mp hlast.symm |>.symm
              have hmem_sp : ∀ x ∈ sp, x ∈ sp.dropLast ∨ x = pr := by
                intro x hx
                conv at hx => rw [← List.dropLast_append_getLast hne]
                rcases List.mem_append.mp hx with h | h
                · exact Or.inl h
                · exact Or.inr (by simpa [hlast'] using h)
              have hsp_not_vis : ∀ x ∈ sp, x ∉ vis := by
                intro x hx hxv
                rcases hmem_sp x hx with h | rfl
                · exact hdl x h (List.mem_append.mpr (Or.inl hxv))
                · exact hprv hxv
              have hcur_not_sp : cur ∉ sp := fun h => hsp_not_vis cur h hcv
              refine ⟨by simp, by rw [List.getLast?_concat], ⟨h0, h0i, ?_⟩, ?_, ?_⟩
              · cases sp with
                | nil => exact absurd rfl hne
                | cons s0 stail => simpa using hhead
              · rw [List.nodup_append]
                refine ⟨hnd, List.nodup_singleton _, ?_⟩
                intro x hx hx1
                rcases List.mem_singleton.mp hx1 with rfl
                exact hcur_not_sp hx
              · intro x hx
                rw [List.dropLast_concat] at hx
                exact hsp_not_vis x hx

/-- The C7 input variable `i`. -/
def c7i : PVal := PVal.var ⟨"i"⟩

/-- The C7 shared intermediate variable `m`, revisited by two distinct
branches. -/
def c7m : PVal := PVal.var ⟨"m"⟩

/-- C7 branch variable `a`. -/
def c7a : PVal := PVal.var ⟨"a"⟩

/-- C7 branch variable `b`. -/
def c7b : PVal := PVal.var ⟨"b"⟩

/-- The C7 target variable `t`. -/
def c7t : PVal := PVal.var ⟨"t"⟩

/-- A reconverging dependency map: `t` depends on `a` and `b`, both of
which depend on the shared `m`, which depends on the input `i`. -/
def c7dd : DepMap := [(c7t, [c7a, c7b]), (c7a, [c7m]), (c7b, [c7m]), (c7m, [c7i])]

/-- Claim C7: reverse multi-path search.  (1) a branch succeeds and
stops the moment it reaches an input variable; (2) a branch yields no
path on a variable with no recorded dependencies that is not an input;
(3) every returned path is nonempty, ordered from an input variable to
the target, and repeats no variable (the per-branch visited set
excludes exactly the variables on the current path); (4) visited
tracking is per-branch, not global: two distinct branches of the
reconverging map both traverse the shared variable `m`. -/
theorem claim_C7_reverse_search :
    (∀ (dd : DepMap) (inp : List PVal) (fuel : Nat) (cur : PVal) (vis : List PVal),
      cur ∈ inp → dfs dd inp (fuel + 1) cur vis = [[cur]]) ∧
    (∀ (dd : DepMap) (inp : List PVal) (fuel : Nat) (cur : PVal) (vis : List PVal),
      cur ∉ inp → lookupDep dd cur = none → dfs dd inp (fuel + 1) cur vis = []) ∧
    (∀ (dd : DepMap) (inp : List PVal) (t : PVal) (p : List PVal),
      p ∈ find_dependency_paths t dd inp →
        p ≠ [] ∧ p.getLast? = some t ∧
          (∃ h0, h0 ∈ inp ∧ p.head? = some h0) ∧ p.Nodup) ∧
    find_dependency_paths c7t c7dd [c7i]
      = [[c7i, c7m, c7a, c7t], [c7i, c7m, c7b, c7t]] := by
  refine ⟨?_, ?_, ?_, by decide⟩
  · intro dd inp fuel cur vis hin
    rw [dfs, if_pos hin]
  · intro dd inp fuel cur vis hin hL
    rw [dfs, if_neg hin, hL]
  · intro dd inp t p hp
    obtain ⟨hne, hlast, hhead, hnd, _⟩ :=
      dfs_path_inv dd inp ((depValsAll dd).length + 1) t [t] p (by simp) hp
    exact ⟨hne, hlast, hhead, hnd⟩

/-- Witness for C7: a branch starting at an input variable returns the
singleton path at once, and a dependency-free non-input variable
returns no path. -/
theorem claim_C7_witness :
    dfs c7dd [c7i] 3 c7i [] = [[c7i]] ∧ dfs c7dd [c7m] 3 c7i [] = [] :=
  ⟨claim_C7_reverse_search.1 c7dd [c7i] 2 c7i [] (by decide),
    claim_C7_reverse_search.2.1 c7dd [c7m] 2 c7i [] (by decide) (by decide)⟩

end Dep

namespace Dep

/-- Lookup through a cons cell of the map. -/
theorem lookupDep_cons (k0 : PVal) (ds : List PVal) (rest : DepMap) (k : PVal) :
    lookupDep ((k0, ds) :: rest) k = if k0 = k then some ds else lookupDep rest k := by
  by_cases h : k0 = k
  · subst h
    simp [lookupDep, List.find?_cons_of_pos]
  · simp only [if_neg h]
    unfold lookupDep
    rw [List.find?_cons_of_neg]
    simp [h]

/-- Lookup of the inserted key after `insertDep`. -/
theorem lookupDep_insertDep_self : ∀ (m : DepMap) (k d : PVal),
    lookupDep (insertDep m k d) k =
      some ((lookupDep m k).elim [d] (fun ds => if d ∈ ds then ds else ds ++ [d])) := by
  intro m
  induction m with
  | nil =>
      intro k d
      simp [insertDep, lookupDep_cons, lookupDep]
  | cons e rest ih =>
      intro k d
      obtain ⟨k0, ds⟩ := e
      by_cases hk : k0 = k
      · subst hk
        simp [insertDep, lookupDep_cons]
      · simp [insertDep, hk, lookupDep_cons, ih]

/-- Lookup of a different key after `insertDep`. -/
theorem lookupDep_insertDep_other : ∀ (m : DepMap) (k' d' k : PVal), k' ≠ k →
    lookupDep (insertDep m k' d') k = lookupDep m k := by
  intro m
  induction m with
  | nil =>
      intro k' d' k h
      simp [insertDep, lookupDep_cons, h, lookupDep]
  | cons e rest ih =>
      intro k' d' k h
      obtain ⟨k0, ds⟩ := e
      by_cases h0 : k0 = k'
      · subst h0
        simp [insertDep, lookupDep_cons, h]
      · simp only [insertDep, if_neg h0]
        rw [lookupDep_cons, lookupDep_cons]
        by_cases hk : k0 = k
        · simp [hk]
        · simp [hk, ih k' d' k h]

/-- Membership after `insertDep`: the old memberships plus the
inserted pair. -/
theorem memDepB_insertDep (m : DepMap) (k' d' k d : PVal) :
    memDepB (insertDep m k' d') k d = true ↔
      (memDepB m k d = true ∨ (k = k' ∧ d = d')) := by
  by_cases hk : k' = k
  · subst hk
    rw [memDepB, lookupDep_insertDep_self, memDepB]
    cases hL : lookupDep m k' with
    | none =>
        simp [Option.elim, List.elem_iff, eq_comm]
    | some ds =>
        by_cases hd : d' ∈ ds
        · simp only [Option.elim, if_pos hd, List.elem_iff]
          constructor
          · exact fun h => Or.inl (by simpa [List.elem_iff] using h)
          · rintro (h | ⟨-, rfl⟩)
            · simpa [List.elem_iff] using h
            · exact hd
        · simp only [Option.elim, if_neg hd, List.elem_iff]
          simp [List.mem_append, List.elem_iff]
  · rw [memDepB, lookupDep_insertDep_other m k' d' k hk, ← memDepB]
    constructor
    · exact Or.inl
    · rintro (h | ⟨rfl, -⟩)
      · exact h
      · exact absurd rfl hk

/-- `addRead` only grows memberships, pointwise. -/
theorem addRead_mono (l : BaseVar) (r : Operand) (m1 m2 : DepMap)
    (h : ∀ k d, memDepB m1 k d = true → memDepB m2 k d = true) :
    ∀ k d, memDepB (addRead l m1 r) k d = true → memDepB (addRead l m2 r) k d = true := by
  intro k d
  cases r with
  | cst s => exact h k d
  | var v =>
      intro hm
      rcases (memDepB_insertDep m1 (PVal.var l) (PVal.var (non_ssa v)) k d).mp hm with
        h1 | h2
      · exact (memDepB_insertDep m2 _ _ k d).mpr (Or.inl (h k d h1))
      · exact (memDepB_insertDep m2 _ _ k d).mpr (Or.inr h2)

/-- A membership survives `addRead`. -/
theorem addRead_grow (l : BaseVar) (r : Operand) (m : DepMap) (k d : PVal)
    (h : memDepB m k d = true) : memDepB (addRead l m r) k d = true := by
  cases r with
  | cst s => exact h
  | var v => exact (memDepB_insertDep m _ _ k d).mpr (Or.inl h)

/-- Folding `addRead` is pointwise monotone. -/
theorem foldl_addRead_mono (l : BaseVar) : ∀ (reads : List Operand) (m1 m2 : DepMap),
    (∀ k d, memDepB m1 k d = true → memDepB m2 k d = true) →
    ∀ k d, memDepB (reads.foldl (addRead l) m1) k d = true →
      memDepB (reads.foldl (addRead l) m2) k d = true := by
  intro reads
  induction reads with
  | nil => intro m1 m2 h k d; exact h k d
  | cons r rest ih =>
      intro m1 m2 h k d
      exact ih (addRead l m1 r) (addRead l m2 r) (addRead_mono l r m1 m2 h) k d

/-- A membership survives a whole `addRead` fold. -/
theorem foldl_addRead_grow (l : BaseVar) : ∀ (reads : List Operand) (m : DepMap)
    (k d : PVal), memDepB m k d = true →
      memDepB (reads.foldl (addRead l) m) k d = true := by
  intro reads
  induction reads with
  | nil => intro m k d h; exact h
  | cons r rest ih =>
      intro m k d h
      exact ih (addRead l m r) k d (addRead_grow l r m k d h)

/-- `processOp` is pointwise monotone. -/
theorem processOp_mono (ir : IROp) (m1 m2 : DepMap)
    (h : ∀ k d, memDepB m1 k d = true → memDepB m2 k d = true) :
    ∀ k d, memDepB (processOp m1 ir) k d = true →
      memDepB (processOp m2 ir) k d = true := by
  intro k d
  unfold processOp
  cases hir : irReads ir with
  | none => exact h k d
  | some lvreads =>
      obtain ⟨lv, reads⟩ := lvreads
      by_cases hs : lv.isStorage
      · simp only [hs, if_true]
        exact h k d
      · simp only [hs, if_false]
        exact foldl_addRead_mono (resolveLValue lv) reads m1 m2 h k d

/-- A membership survives `processOp`. -/
theorem processOp_grow (ir : IROp) (m : DepMap) (k d : PVal)
    (h : memDepB m k d = true) : memDepB (processOp m ir) k d = true := by
  unfold processOp
  cases hir : irReads ir with
  | none => exact h
  | some lvreads =>
      obtain ⟨lv, reads⟩ := lvreads
      by_cases hs : lv.isStorage
      · simp only [hs, if_true]
        exact h
      · simp only [hs, if_false]
        exact foldl_addRead_grow (resolveLValue lv) reads m k d h

/-- Folding `processOp` is pointwise monotone. -/
theorem foldl_processOp_mono : ∀ (ops : List IROp) (m1 m2 : DepMap),
    (∀ k d, memDepB m1 k d = true → memDepB m2 k d = true) →
    ∀ k d, memDepB (ops.foldl processOp m1) k d = true →
      memDepB (ops.foldl processOp m2) k d = true := by
  intro ops
  induction ops with
  | nil => intro m1 m2 h k d; exact h k d
  | cons ir rest ih =>
      intro m1 m2 h k d
      exact ih (processOp m1 ir) (processOp m2 ir) (processOp_mono ir m1 m2 h) k d

/-- A membership survives a whole `processOp` fold. -/
theorem foldl_processOp_grow : ∀ (ops : List IROp) (m : DepMap) (k d : PVal),
    memDepB m k d = true → memDepB (ops.foldl processOp m) k d = true := by
  intro ops
  induction ops with
  | nil => intro m k d h; exact h
  | cons ir rest ih =>
      intro m k d h
      exact ih (processOp m ir) k d (processOp_grow ir m k d h)

/-- Inserting a block of operations in the middle of the extraction
order never loses a membership. -/
theorem foldl_processOp_insert_mid (A mid B : List IROp) (m : DepMap) (k d : PVal)
    (h : memDepB ((A ++ B).foldl processOp m) k d = true) :
    memDepB ((A ++ (mid ++ B)).foldl processOp m) k d = true := by
  rw [List.foldl_append] at h
  rw [List.foldl_append, List.foldl_append]
  exact foldl_processOp_mono B _ _
    (fun k0 d0 h0 => foldl_processOp_grow mid _ k0 d0 h0) k d h

/-- Claim C9: monotonicity of the direct-dependency map — appending
one additional statement (CFG node with its `irs_ssa` list) to any
function of the unit preserves every `(target, dependency)` membership
of the map computed for the original unit, because per-statement
discoveries only union into the mapped sets. -/
theorem claim_C9_depmap_monotone (name : String) (pre post mods : List IRFunc)
    (f : IRFunc) (newNode : List IROp) (k d : PVal)
    (h : memDepB (compute_direct_dependencies ⟨name, pre ++ f :: post, mods⟩) k d
      = true) :
    memDepB (compute_direct_dependencies
        ⟨name, pre ++ (⟨f.name, f.nodes ++ [newNode]⟩ : IRFunc) :: post, mods⟩) k d
      = true := by
  have hA : contractOps ⟨name, pre ++ f :: post, mods⟩
      = (pre.flatMap (fun fn => fn.nodes.flatten) ++ f.nodes.flatten)
        ++ (post.flatMap (fun fn => fn.nodes.flatten)
          ++ mods.flatMap (fun fn => fn.nodes.flatten)) := by
    simp [contractOps, List.flatMap_append, List.append_assoc]
  have hB : contractOps ⟨name, pre ++ (⟨f.name, f.nodes ++ [newNode]⟩ : IRFunc) :: post, mods⟩
      = (pre.flatMap (fun fn => fn.nodes.flatten) ++ f.nodes.flatten)
        ++ (newNode ++ (post.flatMap (fun fn => fn.nodes.flatten)
          ++ mods.flatMap (fun fn => fn.nodes.flatten))) := by
    simp [contractOps, List.flatMap_append, List.append_assoc]
  unfold compute_direct_dependencies at h ⊢
  rw [hB]
  rw [hA] at h
  exact foldl_processOp_insert_mid _ newNode _ [] k d h

end Dep


namespace Taint

/-- Every variable the analyzer can ever observe in a statement. -/
def stmtVars (st : Stmt) : List Var :=
  st.localsRead ++ st.localsWritten ++ st.stateRead ++ st.stateWritten ++
    (match st.expression with
     | some e => e.vars ++ e.arguments.flatMap (fun a => a.vars)
     | none => [])

/-- Every variable observable in a function. -/
def funcVars (f : Func) : List Var := f.parameters ++ f.nodes.flatMap stmtVars

/-- Every variable observable in the contract. -/
def contractVars (c : Contract) : List Var := c.functions.flatMap funcVars

/-- The finite universe of `(variable, function)` pairs reachable by
the worklist from a seed variable `v0`. -/
def poolList (c : Contract) (v0 : Var) : List Pair :=
  (v0 :: contractVars c).flatMap (fun v => c.functions.map (fun f => (v, f)))

/-- Pool membership characterisation. -/
theorem mem_poolList (c : Contract) (v0 v : Var) (f : Func) :
    (v, f) ∈ poolList c v0 ↔ ((v = v0 ∨ v ∈ contractVars c) ∧ f ∈ c.functions) := by
  simp only [poolList, List.mem_flatMap, List.mem_map, List.mem_cons]
  constructor
  · rintro ⟨x, hx, f', hf', heq⟩
    have h1 : x = v := congrArg Prod.fst heq
    have h2 : f' = f := congrArg Prod.snd heq
    subst h1
    subst h2
    exact ⟨hx, hf'⟩
  · rintro ⟨hv, hf⟩
    exact ⟨v, hv, f, hf, rfl⟩

/-- Written variables are statement variables. -/
theorem writtenVars_sub_stmtVars (st : Stmt) (w : Var) (h : w ∈ writtenVars st) :
    w ∈ stmtVars st := by
  unfold writtenVars at h
  unfold stmtVars
  rcases List.mem_append.mp h with h | h
  · simp [h]
  · simp [h]

/-- Variables of an argument at any position of a statement's
expression are statement variables. -/
theorem argVars_sub_stmtVars (st : Stmt) (e : SExpr) (arg : ArgExpr) (av : Var)
    (idx : Nat) (he : st.expression = some e) (harg : e.arguments[idx]? = some arg)
    (hav : av ∈ arg.vars) : av ∈ stmtVars st := by
  unfold stmtVars
  rw [he]
  have hmem : arg ∈ e.arguments := by
    obtain ⟨hn, rfl⟩ := List.getElem?_eq_some.mp harg
    exact List.getElem_mem hn
  have hfm : av ∈ e.arguments.flatMap (fun a => a.vars) :=
    List.mem_flatMap.mpr ⟨arg, hmem, hav⟩
  simp [hfm]

/-- Statement variables of a contract function are contract variables. -/
theorem stmtVars_sub_contractVars (c : Contract) (f : Func) (st : Stmt) (v : Var)
    (hf : f ∈ c.functions) (hst : st ∈ f.nodes) (hv : v ∈ stmtVars st) :
    v ∈ contractVars c := by
  unfold contractVars
  refine List.mem_flatMap.mpr ⟨f, hf, ?_⟩
  unfold funcVars
  exact List.mem_append.mpr (Or.inr (List.mem_flatMap.mpr ⟨st, hst, hv⟩))

/-- Generic characterisation of new worklist entries produced by a
fold: each entry was already queued or is justified by some list
element. -/
theorem foldl_snd_mem {α : Type} (step : (DiGraph × List Pair) → α → DiGraph × List Pair)
    (P : α → Pair → Prop)
    (hstep : ∀ acc x q, q ∈ (step acc x).2 → q ∈ acc.2 ∨ P x q) :
    ∀ (l : List α) (acc : DiGraph × List Pair) (q : Pair),
      q ∈ (l.foldl step acc).2 → q ∈ acc.2 ∨ ∃ x, x ∈ l ∧ P x q := by
  intro l
  induction l with
  | nil => intro acc q h; exact Or.inl h
  | cons x rest ih =>
      intro acc q h
      rw [List.foldl_cons] at h
      rcases ih (step acc x) q h with h1 | ⟨x', hx', hP⟩
      · rcases hstep acc x q h1 with h2 | hP
        · exact Or.inl h2
        · exact Or.inr ⟨x, List.mem_cons_self x rest, hP⟩
      · exact Or.inr ⟨x', List.mem_cons_of_mem _ hx', hP⟩

/-- New worklist entries of `addTaintNodeEdge`. -/
theorem addTaintNodeEdge_snd (func : Func) (ck txt : String) (ln : Option Nat)
    (pr : List Pair) (acc : DiGraph × List Pair) (w : Var) (q : Pair)
    (h : q ∈ (addTaintNodeEdge func ck txt ln pr acc w).2) :
    q ∈ acc.2 ∨ q = (w, func) := by
  unfold addTaintNodeEdge at h
  simp only at h
  by_cases hp : (w, func) ∈ pr
  · rw [if_pos hp] at h
    exact Or.inl h
  · rw [if_neg hp] at h
    rcases List.mem_append.mp h with h | h
    · exact Or.inl h
    · exact Or.inr (List.mem_singleton.mp h)

/-- New worklist entries of the heuristic block: written variables of
the statement, paired with the owning function. -/
theorem processStmtHeur_snd (func : Func) (var : Var) (ck : String) (pr : List Pair)
    (st : Stmt) (acc : DiGraph × List Pair) (q : Pair)
    (h : q ∈ (processStmtHeur func var ck pr st acc).2) :
    q ∈ acc.2 ∨ ∃ w, w ∈ writtenVars st ∧ q = (w, func) := by
  cases hE : st.expression with
  | none =>
      simp only [processStmtHeur, hE] at h
      exact Or.inl h
  | some e =>
      simp only [processStmtHeur, hE] at h
      by_cases hv : var ∈ e.vars
      · rw [if_pos hv] at h
        have hstep2 : ∀ (acc2 : DiGraph × List Pair) (w : Var) (q2 : Pair),
            q2 ∈ (heurStep func ck e st pr acc2 w).2 →
              q2 ∈ acc2.2 ∨ q2 = (w, func) := by
          intro acc2 w q2 h2
          unfold heurStep at h2
          by_cases hw : w ∈ e.vars
          · rw [if_pos hw] at h2
            exact Or.inl h2
          · rw [if_neg hw] at h2
            exact addTaintNodeEdge_snd func ck e.text st.lines.head? pr acc2 w q2 h2
        exact foldl_snd_mem (heurStep func ck e st pr)
          (fun w q => q = (w, func)) hstep2 (writtenVars st) acc q h
      · rw [if_neg hv] at h
        exact Or.inl h

/-- New worklist entries of the data-dependency block. -/
theorem processStmtDep_snd (c : Contract) (func : Func) (var : Var) (ck : String)
    (pr : List Pair) (st : Stmt) (acc : DiGraph × List Pair) (q : Pair)
    (h : q ∈ (processStmtDep c func var ck pr st acc).2) :
    q ∈ acc.2 ∨ ∃ w, w ∈ writtenVars st ∧ q = (w, func) := by
  unfold processStmtDep at h
  have hstep : ∀ (acc2 : DiGraph × List Pair) (w : Var) (q2 : Pair),
      q2 ∈ (depStep c func var ck st pr acc2 w).2 → q2 ∈ acc2.2 ∨ q2 = (w, func) := by
    intro acc2 w q2 h2
    unfold depStep at h2
    by_cases hd : c.isDep w var func
    · rw [if_pos hd] at h2
      exact addTaintNodeEdge_snd func ck (exprStr st) st.lines.head? pr acc2 w q2 h2
    · rw [if_neg hd] at h2
      exact Or.inl h2
  exact foldl_snd_mem (depStep c func var ck st pr)
    (fun w q => q = (w, func)) hstep (writtenVars st) acc q h

/-- New worklist entries of `_process_function_taint`: written
variables of the function's statements. -/
theorem processFunctionTaint_snd (c : Contract) (func : Func) (var : Var)
    (ck : String) (pr : List Pair) (acc : DiGraph × List Pair) (q : Pair)
    (h : q ∈ (processFunctionTaint c func var ck pr acc).2) :
    q ∈ acc.2 ∨ ∃ st, st ∈ func.nodes ∧ ∃ w, w ∈ writtenVars st ∧ q = (w, func) := by
  unfold processFunctionTaint at h
  have hstep : ∀ (acc2 : DiGraph × List Pair) (st : Stmt) (q2 : Pair),
      q2 ∈ (processStmtDep c func var ck pr st
          (processStmtHeur func var ck pr st acc2)).2 →
        q2 ∈ acc2.2 ∨ ∃ w, w ∈ writtenVars st ∧ q2 = (w, func) := by
    intro acc2 st q2 h2
    rcases processStmtDep_snd c func var ck pr st _ q2 h2 with h3 | hP
    · rcases processStmtHeur_snd func var ck pr st acc2 q2 h3 with h4 | hP
      · exact Or.inl h4
      · exact Or.inr hP
    · exact Or.inr hP
  exact foldl_snd_mem _
    (fun st q => ∃ w, w ∈ writtenVars st ∧ q = (w, func)) hstep func.nodes acc q h

/-- New worklist entries of `_process_state_var_taint`: the same
variable in other functions that read it. -/
theorem processStateVarTaint_snd (c : Contract) (func : Func) (var : Var)
    (ck : String) (pr : List Pair) (acc : DiGraph × List Pair) (q : Pair)
    (h : q ∈ (processStateVarTaint c func var ck pr acc).2) :
    q ∈ acc.2 ∨ ∃ of, of ∈ c.functions ∧ q = (var, of) := by
  unfold processStateVarTaint at h
  have hstate : ∀ (of : Func) (acc3 : DiGraph × List Pair) (st : Stmt) (q3 : Pair),
      q3 ∈ (stateStep var ck of pr acc3 st).2 → q3 ∈ acc3.2 ∨ q3 = (var, of) := by
    intro of acc3 st q3 h3
    unfold stateStep at h3
    by_cases hr : var ∈ st.stateRead
    · rw [if_pos hr] at h3
      simp only at h3
      by_cases hq : (var, of) ∈ pr
      · rw [if_pos hq] at h3
        exact Or.inl h3
      · rw [if_neg hq] at h3
        rcases List.mem_append.mp h3 with h4 | h4
        · exact Or.inl h4
        · exact Or.inr (List.mem_singleton.mp h4)
    · rw [if_neg hr] at h3
      exact Or.inl h3
  have hstep : ∀ (acc2 : DiGraph × List Pair) (of : Func) (q2 : Pair),
      q2 ∈ ((fun a of =>
          if of = func then a
          else of.nodes.foldl (stateStep var ck of pr) a) acc2 of).2 →
        q2 ∈ acc2.2 ∨ q2 = (var, of) := by
    intro acc2 of q2 h2
    simp only at h2
    by_cases hf : of = func
    · rw [if_pos hf] at h2
      exact Or.inl h2
    · rw [if_neg hf] at h2
      rcases foldl_snd_mem (stateStep var ck of pr) (fun _ q => q = (var, of))
          (fun a3 st q3 => hstate of a3 st q3) of.nodes acc2 q2 h2 with h3 | ⟨_, _, hP⟩
      · exact Or.inl h3
      · exact Or.inr hP
  exact foldl_snd_mem _ (fun of q => q = (var, of)) hstep c.functions acc q h

/-- New worklist entries of `_process_parameter_taint`: variables of
call-argument expressions in the calling function's statements. -/
theorem processParameterTaint_snd (c : Contract) (func : Func) (var : Var)
    (ck : String) (pr : List Pair) (acc : DiGraph × List Pair) (q : Pair)
    (h : q ∈ (processParameterTaint c func var ck pr acc).2) :
    q ∈ acc.2 ∨ ∃ of, of ∈ c.functions ∧ ∃ st, st ∈ of.nodes ∧
      ∃ av, av ∈ stmtVars st ∧ q = (av, of) := by
  unfold processParameterTaint at h
  simp only at h
  have hcall : ∀ (of : Func) (st : Stmt) (acc4 : DiGraph × List Pair)
      (callee : String) (q4 : Pair),
      q4 ∈ (paramCallStep func var ck of st (func.parameters.indexOf var) pr
          acc4 callee).2 →
        q4 ∈ acc4.2 ∨ ∃ av, av ∈ stmtVars st ∧ q4 = (av, of) := by
    intro of st acc4 callee q4 h4
    unfold paramCallStep at h4
    by_cases hc : callee = func.name
    · rw [if_pos hc] at h4
      cases hE : st.expression with
      | none =>
          simp only [hE] at h4
          exact Or.inl h4
      | some e =>
          simp only [hE] at h4
          cases hA : e.arguments[func.parameters.indexOf var]? with
          | none =>
              simp only [hA] at h4
              exact Or.inl h4
          | some arg =>
              simp only [hA] at h4
              have hargstep : ∀ (acc5 : DiGraph × List Pair) (av : Var) (q5 : Pair),
                  q5 ∈ (paramArgStep func var ck of st pr acc5 av).2 →
                    q5 ∈ acc5.2 ∨ (av ∈ getArgVars arg → av ∈ stmtVars st ∧ q5 = (av, of)) := by
                intro acc5 av q5 h5
                unfold paramArgStep at h5
                simp only at h5
                by_cases hq : (av, of) ∈ pr
                · rw [if_pos hq] at h5
                  exact Or.inl h5
                · rw [if_neg hq] at h5
                  rcases List.mem_append.mp h5 with h6 | h6
                  · exact Or.inl h6
                  · refine Or.inr (fun hin => ⟨?_, List.mem_singleton.mp h6⟩)
                    exact argVars_sub_stmtVars st e arg av
                      (func.parameters.indexOf var) hE hA hin
              rcases foldl_snd_mem (paramArgStep func var ck of st pr)
                  (fun av q => av ∈ getArgVars arg → av ∈ stmtVars st ∧ q = (av, of))
                  hargstep (getArgVars arg) acc4 q4 h4 with h5 | ⟨av, hav, hP⟩
              · exact Or.inl h5
              · exact Or.inr ⟨av, hP hav⟩
    · rw [if_neg hc] at h4
      exact Or.inl h4
  have hstmt : ∀ (of : Func) (acc3 : DiGraph × List Pair) (st : Stmt) (q3 : Pair),
      q3 ∈ (st.internalCalls.foldl
          (paramCallStep func var ck of st (func.parameters.indexOf var) pr) acc3).2 →
        q3 ∈ acc3.2 ∨ ∃ av, av ∈ stmtVars st ∧ q3 = (av, of) := by
    intro of acc3 st q3 h3
    rcases foldl_snd_mem _
        (fun _ q => ∃ av, av ∈ stmtVars st ∧ q = (av, of))
        (fun a4 cal q4 => hcall of st a4 cal q4) st.internalCalls acc3 q3 h3 with
      h4 | ⟨_, _, hP⟩
    · exact Or.inl h4
    · exact Or.inr hP
  have hfunc : ∀ (acc2 : DiGraph × List Pair) (of : Func) (q2 : Pair),
      q2 ∈ (of.nodes.foldl (fun a2 st => st.internalCalls.foldl
          (paramCallStep func var ck of st (func.parameters.indexOf var) pr) a2)
          acc2).2 →
        q2 ∈ acc2.2 ∨ ∃ st, st ∈ of.nodes ∧ ∃ av, av ∈ stmtVars st ∧ q2 = (av, of) := by
    intro acc2 of q2 h2
    exact foldl_snd_mem _
      (fun st q => ∃ av, av ∈ stmtVars st ∧ q = (av, of))
      (fun a3 st q3 => hstmt of a3 st q3) of.nodes acc2 q2 h2
  exact foldl_snd_mem _
    (fun of q => ∃ st, st ∈ of.nodes ∧ ∃ av, av ∈ stmtVars st ∧ q = (av, of))
    hfunc c.functions acc q h

end Taint

namespace Taint

/-- The number of pool pairs not yet processed. -/
def unproc (pool procd : List Pair) : Nat :=
  (pool.filter (fun q => decide (q ∉ procd))).length

/-- Marking one more pair processed never increases the measure. -/
theorem filter_notmem_mono (l : List Pair) (p : Pair) (procd : List Pair) :
    (l.filter (fun q => decide (q ∉ p :: procd))).length ≤
      (l.filter (fun q => decide (q ∉ procd))).length :=
  (List.monotone_filter_right l (fun a ha => by
    simp only [decide_eq_true_eq] at ha ⊢
    exact fun hn => ha (List.mem_cons_of_mem _ hn))).length_le

/-- Processing a fresh pool pair strictly decreases the measure. -/
theorem unproc_lt (pool procd : List Pair) (p : Pair) (hp : p ∈ pool)
    (hnp : p ∉ procd) : unproc pool (p :: procd) < unproc pool procd := by
  obtain ⟨s, t, rfl⟩ := List.append_of_mem hp
  unfold unproc
  rw [List.filter_append, List.filter_append, List.length_append, List.length_append,
    List.filter_cons, List.filter_cons]
  have h1 : (decide (p ∉ p :: procd)) = false := by simp
  have h2 : (decide (p ∉ procd)) = true := by simpa using hnp
  rw [h1, h2]
  have hs := filter_notmem_mono s p procd
  have ht := filter_notmem_mono t p procd
  rw [if_neg (by simp : ¬(false = true)), if_pos (rfl : true = true)]
  simp only [List.length_cons]
  omega

/-- A fresh pool pair witnesses a positive measure. -/
theorem unproc_pos (pool procd : List Pair) (p : Pair) (hp : p ∈ pool)
    (hnp : p ∉ procd) : 0 < unproc pool procd := by
  unfold unproc
  have hmem : p ∈ pool.filter (fun q => decide (q ∉ procd)) :=
    List.mem_filter.mpr ⟨hp, by simpa using hnp⟩
  exact List.length_pos.mpr (List.ne_nil_of_mem hmem)

/-- Every worklist entry appended by one fresh iteration is either an
old entry or a pair of the finite pool. -/
theorem buildStep_pool (c : Contract) (v0 var : Var) (func : Func) (pr' : List Pair)
    (g : DiGraph) (rest : List Pair)
    (hvar : var = v0 ∨ var ∈ contractVars c) (hfunc : func ∈ c.functions) :
    ∀ q ∈ (buildStep c var func pr' (g, rest)).2, q ∈ rest ∨ q ∈ poolList c v0 := by
  intro q hq
  have base : ∀ q2 ∈ ((g, rest) : DiGraph × List Pair).2,
      q2 ∈ rest ∨ q2 ∈ poolList c v0 := fun q2 h => Or.inl h
  have hPF : ∀ (acc : DiGraph × List Pair),
      (∀ q2 ∈ acc.2, q2 ∈ rest ∨ q2 ∈ poolList c v0) →
      ∀ q2 ∈ (processFunctionTaint c func var (node_key var (some func)) pr' acc).2,
        q2 ∈ rest ∨ q2 ∈ poolList c v0 := by
    intro acc hacc q2 hq2
    rcases processFunctionTaint_snd c func var _ pr' acc q2 hq2 with
      h1 | ⟨st, hst, w, hw, rfl⟩
    · exact hacc q2 h1
    · exact Or.inr ((mem_poolList c v0 w func).mpr
        ⟨Or.inr (stmtVars_sub_contractVars c func st w hfunc hst
          (writtenVars_sub_stmtVars st w hw)), hfunc⟩)
  have hSV : ∀ (acc : DiGraph × List Pair),
      (∀ q2 ∈ acc.2, q2 ∈ rest ∨ q2 ∈ poolList c v0) →
      ∀ q2 ∈ (processStateVarTaint c func var (node_key var (some func)) pr' acc).2,
        q2 ∈ rest ∨ q2 ∈ poolList c v0 := by
    intro acc hacc q2 hq2
    rcases processStateVarTaint_snd c func var _ pr' acc q2 hq2 with
      h1 | ⟨of, hof, rfl⟩
    · exact hacc q2 h1
    · exact Or.inr ((mem_poolList c v0 var of).mpr ⟨hvar, hof⟩)
  have hPT : ∀ (acc : DiGraph × List Pair),
      (∀ q2 ∈ acc.2, q2 ∈ rest ∨ q2 ∈ poolList c v0) →
      ∀ q2 ∈ (processParameterTaint c func var (node_key var (some func)) pr' acc).2,
        q2 ∈ rest ∨ q2 ∈ poolList c v0 := by
    intro acc hacc q2 hq2
    rcases processParameterTaint_snd c func var _ pr' acc q2 hq2 with
      h1 | ⟨of, hof, st, hst, av, hav, rfl⟩
    · exact hacc q2 h1
    · exact Or.inr ((mem_poolList c v0 av of).mpr
        ⟨Or.inr (stmtVars_sub_contractVars c of st av hof hst hav), hof⟩)
  by_cases hs : var.cls = VarCls.stateV <;> by_cases hp : var ∈ func.parameters
  · simp only [buildStep, if_pos hs, if_pos hp] at hq
    exact hPT _ (hSV _ (hPF _ base)) q hq
  · simp only [buildStep, if_pos hs, if_neg hp] at hq
    exact hSV _ (hPF _ base) q hq
  · simp only [buildStep, if_neg hs, if_pos hp] at hq
    exact hPT _ (hPF _ base) q hq
  · simp only [buildStep, if_neg hs, if_neg hp] at hq
    exact hPF _ base q hq

/-- For every worklist whose entries lie in the pool, some finite fuel
makes the loop return. -/
theorem buildLoop_total (c : Contract) (v0 : Var) :
    ∀ (n m : Nat) (g : DiGraph) (tp procd : List Pair),
      (∀ q ∈ tp, q ∈ poolList c v0) →
      unproc (poolList c v0) procd ≤ n →
      tp.length ≤ m →
      ∃ fuel G p, buildLoop c fuel g tp procd = some (G, p) := by
  intro n
  induction n with
  | zero =>
      intro m
      induction m with
      | zero =>
          intro g tp procd hpool hn hm
          have htp : tp = [] := List.length_eq_zero.mp (Nat.le_zero.mp hm)
          subst htp
          exact ⟨0, g, procd, rfl⟩
      | succ m ihm =>
          intro g tp procd hpool hn hm
          cases tp with
          | nil => exact ⟨0, g, procd, rfl⟩
          | cons hd rest =>
              obtain ⟨var, func⟩ := hd
              by_cases hmem : (var, func) ∈ procd
              · obtain ⟨fuel, G, p, hrun⟩ := ihm g rest procd
                  (fun q hq => hpool q (List.mem_cons_of_mem _ hq)) hn
                  (by simp only [List.length_cons] at hm; omega)
                refine ⟨fuel + 1, G, p, ?_⟩
                rw [buildLoop, if_pos hmem]
                exact hrun
              · exfalso
                have hp : (var, func) ∈ poolList c v0 :=
                  hpool _ (List.mem_cons_self _ _)
                have := unproc_pos (poolList c v0) procd (var, func) hp hmem
                omega
  | succ n ihn =>
      intro m
      induction m with
      | zero =>
          intro g tp procd hpool hn hm
          have htp : tp = [] := List.length_eq_zero.mp (Nat.le_zero.mp hm)
          subst htp
          exact ⟨0, g, procd, rfl⟩
      | succ m ihm =>
          intro g tp procd hpool hn hm
          cases tp with
          | nil => exact ⟨0, g, procd, rfl⟩
          | cons hd rest =>
              obtain ⟨var, func⟩ := hd
              by_cases hmem : (var, func) ∈ procd
              · obtain ⟨fuel, G, p, hrun⟩ := ihm g rest procd
                  (fun q hq => hpool q (List.mem_cons_of_mem _ hq)) hn
                  (by simp only [List.length_cons] at hm; omega)
                refine ⟨fuel + 1, G, p, ?_⟩
                rw [buildLoop, if_pos hmem]
                exact hrun
              · have hp : (var, func) ∈ poolList c v0 :=
                  hpool _ (List.mem_cons_self _ _)
                have hpair := (mem_poolList c v0 var func).mp hp
                have hpool3 : ∀ q ∈ (buildStep c var func ((var, func) :: procd)
                    (g, rest)).2, q ∈ poolList c v0 := by
                  intro q hq
                  rcases buildStep_pool c v0 var func ((var, func) :: procd) g rest
                      hpair.1 hpair.2 q hq with h | h
                  · exact hpool q (List.mem_cons_of_mem _ h)
                  · exact h
                have hn' : unproc (poolList c v0) ((var, func) :: procd) ≤ n := by
                  have hlt := unproc_lt (poolList c v0) procd (var, func) hp hmem
                  omega
                obtain ⟨fuel, G, p, hrun⟩ := ihn
                  ((buildStep c var func ((var, func) :: procd) (g, rest)).2.length)
                  (buildStep c var func ((var, func) :: procd) (g, rest)).1
                  (buildStep c var func ((var, func) :: procd) (g, rest)).2
                  ((var, func) :: procd) hpool3 hn' le_rfl
                refine ⟨fuel + 1, G, p, ?_⟩
                rw [buildLoop, if_neg hmem]
                exact hrun

/-- The final processed set is duplicate-free: a pair already in the
processed set is skipped, so each pair is processed at most once. -/
theorem buildLoop_nodup (c : Contract) : ∀ (fuel : Nat) (g : DiGraph)
    (tp procd : List Pair) (G : DiGraph) (p : List Pair),
    buildLoop c fuel g tp procd = some (G, p) → procd.Nodup → p.Nodup := by
  intro fuel
  induction fuel with
  | zero =>
      intro g tp procd G p hrun hnd
      cases tp with
      | nil =>
          simp only [buildLoop, Option.some.injEq, Prod.mk.injEq] at hrun
          rw [← hrun.2]
          exact hnd
      | cons hd rest => simp [buildLoop] at hrun
  | succ fuel ih =>
      intro g tp procd G p hrun hnd
      cases tp with
      | nil =>
          simp only [buildLoop, Option.some.injEq, Prod.mk.injEq] at hrun
          rw [← hrun.2]
          exact hnd
      | cons hd rest =>
          obtain ⟨var, func⟩ := hd
          rw [buildLoop] at hrun
          by_cases hmem : (var, func) ∈ procd
          · rw [if_pos hmem] at hrun
            exact ih g rest procd G p hrun hnd
          · rw [if_neg hmem] at hrun
            exact ih _ _ _ G p hrun (List.nodup_cons.mpr ⟨hmem, hnd⟩)

/-- Claim C5: taint-graph construction terminates on every finite
unit, including cyclic ones — for every contract, seed function in the
contract, and seed variable, some finite fuel suffices for the FIFO
worklist loop to return, and the final processed set is
duplicate-free (each `(variable, function)` pair is processed at most
once, guarded by the processed-set). -/
theorem claim_C5_termination (c : Contract) (f : Func) (v : Var)
    (hf : f ∈ c.functions) :
    ∃ fuel G p, buildLoop c fuel (initGraph v f) [(v, f)] [] = some (G, p) ∧
      p.Nodup := by
  obtain ⟨fuel, G, p, hrun⟩ := buildLoop_total c v (unproc (poolList c v) []) 1
    (initGraph v f) [(v, f)] []
    (fun q hq => by
      rcases List.mem_singleton.mp hq with rfl
      exact (mem_poolList c v v f).mpr ⟨Or.inl rfl, hf⟩)
    le_rfl (by simp)
  exact ⟨fuel, G, p, hrun, buildLoop_nodup c fuel _ _ _ G p hrun List.nodup_nil⟩

/-- Parameter `x` of the cyclic function `A`. -/
def c5x : Var := ⟨"x", VarCls.localV, true⟩

/-- Parameter `y` of the cyclic function `B`. -/
def c5y : Var := ⟨"y", VarCls.localV, true⟩

/-- Statement of `A`: the call `B(x)`. -/
def c5stA : Stmt := ⟨some ⟨"B(x)", [c5x], [⟨"x", [c5x]⟩]⟩, [c5x], [], [], [], ["B"], [1]⟩

/-- The function `A(x) { B(x) }`. -/
def c5A : Func := ⟨"A", [c5x], [c5stA]⟩

/-- Statement of `B`: the call `A(y)`. -/
def c5stB : Stmt := ⟨some ⟨"A(y)", [c5y], [⟨"y", [c5y]⟩]⟩, [c5y], [], [], [], ["A"], [2]⟩

/-- The function `B(y) { A(y) }`. -/
def c5B : Func := ⟨"B", [c5y], [c5stB]⟩

/-- The cyclic contract: `A` calls `B` calls `A`. -/
def c5C : Contract := ⟨[c5A, c5B], fun _ _ _ => false⟩

/-- Witness for C5: the synthetic cyclic unit (`A` calls `B` calls
`A`) still terminates with a duplicate-free processed set. -/
theorem claim_C5_witness :
    ∃ fuel G p, buildLoop c5C fuel (initGraph c5x c5A) [(c5x, c5A)] []
      = some (G, p) ∧ p.Nodup :=
  claim_C5_termination c5C c5A c5x (by decide)

end Taint

namespace Dep

/-- The single IR operation of the C9 witness: `s := inp`. -/
def c9op : IROp :=
  IROp.opWithLValue ⟨false, none, ⟨⟨"s"⟩, none⟩⟩ [Operand.var ⟨⟨"inp"⟩, none⟩]

/-- The original C9 witness function, one node with one operation. -/
def c9f : IRFunc := ⟨"fn", [[c9op]]⟩

/-- Witness for C9: the dependency `s ← inp` recorded for the original
unit survives appending one more statement to the function. -/
theorem claim_C9_witness :
    memDepB (compute_direct_dependencies
        ⟨"C", [(⟨"fn", [[c9op], [IROp.otherOp]]⟩ : IRFunc)], []⟩)
      (PVal.var ⟨"s"⟩) (PVal.var ⟨"inp"⟩) = true :=
  claim_C9_depmap_monotone "C" [] [] [] c9f [IROp.otherOp]
    (PVal.var ⟨"s"⟩) (PVal.var ⟨"inp"⟩) (by decide)

end Dep
